import Mathlib

/-!
# A verification development for `gvalop_parser.py`

This file gives a shallow embedding of the parsing-and-reduction engine of
`gvalop_parser.py` (the "Grouped VALues and OPerators" parser) and settles a
list of claims about it.

Modelling conventions:

* Python strings are modelled as `List Char` (`Str`).  `str.strip()` is
  modelled by trimming whitespace characters from both ends.
* Evaluation functions are total Lean functions; the value domain is a type
  parameter `α`.
* Python exceptions are modelled by `Except PError`.  The two parser error
  classes `InvalidOperandError` and `MissingOperatorError` carry their static
  message text and the optional source index, mirroring
  `ParserError.__init__(msg, index)` (the index that Python interpolates into
  some message texts is carried in the `index` field only).
* Python `while` loops and recursion through the object graph are modelled
  with an explicit fuel parameter; exhausting fuel models divergence
  (`PError.outOfFuel` / `Option.none`), which the Python code exhibits e.g.
  for an operator with an empty representation string.
* List accesses `items[i]` use Python indexing semantics, including negative
  indices (`pyGet`); `del items[i]` is `List.eraseIdx` at the wrapped index.
-/

namespace Gvalop

/-- Python strings are modelled as lists of characters. -/
abbrev Str := List Char

/-- `str.strip()`: remove whitespace from both ends. -/
def pyStrip (s : Str) : Str :=
  ((s.dropWhile Char.isWhitespace).reverse.dropWhile Char.isWhitespace).reverse

/-- `str.lower()` (ASCII case folding suffices for the inputs considered). -/
def pyLower (s : Str) : Str := s.map Char.toLower

/-- Python's `needle in hay` substring test. -/
def pyIn (needle hay : Str) : Bool :=
  needle.isPrefixOf hay ||
    match hay with
    | [] => false
    | _ :: t => pyIn needle t

/-- Python list subscription `l[i]` with negative-index wrap-around:
`l[i]` is `l[len(l)+i]` for `-len(l) ≤ i < 0` and an `IndexError`
(modelled as `none`) outside the valid range. -/
def pyGet {β : Type} (l : List β) (i : Int) : Option β :=
  if 0 ≤ i then l.get? i.toNat
  else if 0 ≤ (l.length : Int) + i then l.get? ((l.length : Int) + i).toNat
  else none

/-- `class Grouping`: an immutable pair of delimiter strings.
The Python attribute `end` is rendered `end_` (a Lean keyword). -/
structure Grouping where
  start : Str
  end_ : Str
deriving DecidableEq

/-- `Grouping.__len__`: `len(self.start) + len(self.end)`. -/
def Grouping.len (g : Grouping) : Nat := g.start.length + g.end_.length

/-- The node model: `Value`, `OperatorBinary`, `OperatorUnary`, `Group` and
`Result` from the source, as one tagged type.  `group` stores the framing
`Grouping` (`none` for the root) and the ordered `children` list; the Python
`parent` back-reference is not a field of the pure tree (see `groupReduce`
for how the behaviour it induces during reduction is accounted for, and the
heap model at the end of the file for the back-reference itself). -/
inductive Node (α : Type) where
  /-- `Value(func, value)`: raw text plus its evaluation function. -/
  | value (func : Str → α) (text : Str)
  /-- `OperatorBinary(representation, func)`. -/
  | opBinary (rep : Str) (func : α → α → α)
  /-- `OperatorUnary(representation, func)`. -/
  | opUnary (rep : Str) (func : α → α)
  /-- `Group(parent, grouping)` with its `children`. -/
  | group (grouping : Option Grouping) (children : List (Node α))
  /-- `Result(value, consumed_length)`. -/
  | result (val : α) (consumed_length : Nat)

variable {α : Type}

/-- `len(grouping)` for an optional grouping (`0` when absent, i.e. at the
root, where `Group.consume` adds nothing). -/
def glen : Option Grouping → Nat
  | none => 0
  | some g => g.len

mutual

/-- The number of source characters a node accounts for once reduced: the
(stripped) text of a `Value`, the representation of an operator, the recorded
`consumed_length` of a `Result`, and for a `Group` the sum over its children
plus its delimiters.  This is the measure the reduction engine's
`consumed_length` bookkeeping computes. -/
def tokenLen : Node α → Nat
  | .value _ t => t.length
  | .opBinary r _ => r.length
  | .opUnary r _ => r.length
  | .result _ cl => cl
  | .group gr ch => tokenSum ch + glen gr

/-- Sum of `tokenLen` over a list of nodes. -/
def tokenSum : List (Node α) → Nat
  | [] => 0
  | n :: ns => tokenLen n + tokenSum ns

end

/-! ## The tokenizer / `Parser.parse`

The Python parser walks the input left to right keeping a mutable state
`{string, index, current_group, current_value}`; groups are linked to their
parents and the current group ascends/descends along that chain.  Here the
chain of open groups is the explicit stack `stack`: each entry holds the
`Grouping` that opened the group together with the children the *parent*
group had accumulated when it was opened; `cur` is the current group's
children so far and `pending` the accumulating `current_value` text. -/

/-- An `Operator` as configured on the parser: either variant together with
its representation string and function. -/
inductive Oper (α : Type) where
  | binary (rep : Str) (func : α → α → α)
  | unary (rep : Str) (func : α → α)

/-- `str(op)`: the representation string. -/
def Oper.rep : Oper α → Str
  | .binary r _ => r
  | .unary r _ => r

/-- The tree node appended by `_tryConsumeOperator`. -/
def Oper.node : Oper α → Node α
  | .binary r f => Node.opBinary r f
  | .unary r f => Node.opUnary r f

/-- `Parser._isSubstringAtIndex(string, index, sub)`:
`string[index:index+len(sub)] == sub`, phrased on the remaining suffix. -/
def isSubstringAt (rest sub : Str) : Bool := sub.isPrefixOf rest

/-- `Parser._pushValue(group, value)`: strip the pending text; if non-empty,
append it to the children as a `Value` carrying the parser's default
evaluation function.  (In both cases the pending buffer continues empty.) -/
def pushValue (f : Str → α) (children : List (Node α)) (pending : Str) :
    List (Node α) :=
  let t := pyStrip pending
  if t = [] then children else children ++ [Node.value f t]

/-- The loop of `_tryConsumeGroupStart`: the first configured `Grouping`
whose start string matches at the current position. -/
def findGroupStart (gs : List Grouping) (rest : Str) : Option Grouping :=
  match gs with
  | [] => none
  | g :: gs' => if isSubstringAt rest g.start then some g else findGroupStart gs' rest

/-- The loop of `_tryConsumeOperator`: the first configured operator whose
representation matches at the current position. -/
def findOper (ops : List (Oper α)) (rest : Str) : Option (Oper α) :=
  match ops with
  | [] => none
  | op :: ops' => if isSubstringAt rest op.rep then some op else findOper ops' rest

/-- Close all groups still open when the input ends: each open group becomes
a child of its parent exactly as it was linked at creation time
(`current_group.children.append(new_group)` happened when the group was
opened, so a dangling group is already a child of its ancestor). -/
def unwind : List (Grouping × List (Node α)) → List (Node α) → List (Node α)
  | [], cur => cur
  | (g, done) :: st, cur => unwind st (done ++ [Node.group (some g) cur])

/-- The `while` loop of `Parser.parse`.  At each position, in this order:
a matching group start descends, the current group's end ascends, a matching
operator is appended, otherwise one character is added to the pending value;
at the end of the input the pending value is flushed and the root returned.
`fuel` bounds the number of iterations; `none` models divergence (reachable
only with an empty delimiter or operator representation, where the Python
loop stops advancing). -/
def parseLoop (ops : List (Oper α)) (gs : List Grouping) (f : Str → α)
    (fuel : Nat) (s : Str) (stack : List (Grouping × List (Node α)))
    (cur : List (Node α)) (pending : Str) : Option (Node α) :=
  match s, fuel with
  | [], _ =>
      some (Node.group none (unwind stack (pushValue f cur pending)))
  | _ :: _, 0 => none
  | c :: rest', fuel + 1 =>
      let rest := c :: rest'
      match findGroupStart gs rest with
      | some g =>
          parseLoop ops gs f fuel (rest.drop g.start.length)
            ((g, pushValue f cur pending) :: stack) [] []
      | none =>
          match stack with
          | (g, done) :: stack' =>
              if isSubstringAt rest g.end_ then
                parseLoop ops gs f fuel (rest.drop g.end_.length) stack'
                  (done ++ [Node.group (some g) (pushValue f cur pending)]) []
              else
                match findOper ops rest with
                | some op =>
                    parseLoop ops gs f fuel (rest.drop op.rep.length) stack
                      (pushValue f cur pending ++ [op.node]) []
                | none => parseLoop ops gs f fuel rest' stack cur (pending ++ [c])
          | [] =>
              match findOper ops rest with
              | some op =>
                  parseLoop ops gs f fuel (rest.drop op.rep.length) stack
                    (pushValue f cur pending ++ [op.node]) []
              | none => parseLoop ops gs f fuel rest' stack cur (pending ++ [c])

/-- `Parser.parse(string, evaluation_func)`: run the loop from the start of
the string with an empty root group and empty pending value.  A fuel of
`length + 1` suffices whenever every configured representation and delimiter
is non-empty, since then every iteration consumes at least one character. -/
def parse (ops : List (Oper α)) (gs : List Grouping) (f : Str → α) (s : Str) :
    Option (Node α) :=
  parseLoop ops gs f (s.length + 1) s [] [] []

/-! ## The reduction engine (the `consume` protocol)

`Group.evaluate` deep-copies the group and reduces the copy.  The copy's
`__deepcopy__` sets each copied Group's `parent` field to the *original*
parent object (`type(self)(parent=self.parent, ...)`), so during reduction a
nested clone Group's `consumed_length` property walks the children of the
ORIGINAL parent group — a list in which the clone never occurs (the identity
test `parent_child is self` never succeeds) and which reduction never
mutates.  Consequently, for the reducing clone the parent-dependent summand
of `consumed_length` is a fixed number: `0` for the root, and for a nested
group the sum of the lengths of ALL of the original parent's children plus
`1` (the property's trailing `+ 1`).  That summand is threaded through the
reduction below: `origPW` is the current group's summand, and `childPW` the
summand any of its child groups would use, computed from the entry children
(which coincide with the original parent's children). -/

/-- Errors raised during reduction.  `invalidOperand` / `missingOperator`
model the two `ParserError` subclasses with their static message text and
the optional source index (Python interpolates the index into some message
strings as well; here it lives in the `index` field only).  `indexError` and
`attributeError` model the corresponding uncaught Python exceptions, and
`outOfFuel` models divergence. -/
inductive PError where
  | invalidOperand (msg : String) (index : Option Nat)
  | missingOperator (msg : String) (index : Option Nat)
  | outOfFuel
  | indexError
  | attributeError
deriving DecidableEq

/-- `OperatorBinary.consume`: message of the `IndexError` handler. -/
def msgLeftRightMissing : String := "Left or right operand is missing"

/-- `OperatorUnary.consume`: message of the `IndexError` handler. -/
def msgRightMissing : String := "Right operand is missing"

/-- `OperatorBinary.consume`: message of the failed `isinstance` check. -/
def msgLeftNotResult : String := "Left operand is not a Result object"

/-- `Group.consume`: message of the re-raised `InvalidOperandError`
(Python interpolates the index into the text; it is carried in the
error's `index` field here). -/
def msgOperatorInvalid : String := "An operator encountered an invalid operand"

/-- `Group.consume`: message of the `MissingOperatorError` (again with the
index in the `index` field). -/
def msgOperatorMissing : String := "An operator is missing"

/-- `isinstance(node, Result)`. -/
def isResult : Node α → Bool
  | .result _ _ => true
  | _ => false

/-- `len(self.grouping.start)` for an optional grouping (`none` has no
Python counterpart on this path: original subgroups always carry one). -/
def startLen : Option Grouping → Nat
  | some g => g.start.length
  | none => 0

mutual

/-- The `self.children[0].consumed_length` base of `Group.consumed_length`
on an ORIGINAL (unreduced) group's children: a leading `Result` exposes the
attribute, a leading sub-Group evaluates its own property (with the present
list as its siblings, at index 0), and a leading `Value` or operator raises
`AttributeError`, caught to `0`. -/
def origHead (fuel : Nat) : List (Node α) → Nat
  | [] => 0
  | .value _ _ :: _ => 0
  | .opBinary _ _ :: _ => 0
  | .opUnary _ _ :: _ => 0
  | .result _ cl :: _ => cl
  | .group gr2 ch2 :: rest => origCL fuel gr2 ch2 (.group gr2 ch2 :: rest) 0
termination_by _ => (fuel, 1)

/-- `Group.consumed_length` evaluated on an ORIGINAL (unreduced, parented)
subgroup: `origCL fuel gr children siblings idx` is the property's value for
the group `Group(grouping := gr)` with children `children` sitting at
position `idx` of its parent's children `siblings`.  Following the property:
the base is `children[0].consumed_length` (`origHead`); a first child adds
`len(self.grouping.start)` (original subgroups always carry a grouping);
otherwise the preceding siblings' lengths plus the property's trailing
`+ 1` are added.  Fuel bounds the recursion depth. -/
def origCL (fuel : Nat) (gr : Option Grouping) (children siblings : List (Node α))
    (idx : Nat) : Nat :=
  match fuel with
  | 0 => 0
  | fuel + 1 =>
    origHead fuel children
    + (if idx = 0 then startLen gr else origWalk fuel siblings idx + 1)
termination_by (fuel, 0)

/-- The `for parent_child in self.parent.children` walk of
`Group.consumed_length`: sum of the lengths of the first `idx` siblings,
using `consumed_length` where the attribute exists (`Result`, sub-`Group`)
and `len(...)` otherwise. -/
def origWalk (fuel : Nat) (siblings : List (Node α)) (idx : Nat) : Nat :=
  match fuel, idx with
  | 0, _ => 0
  | _ + 1, 0 => 0
  | fuel + 1, j + 1 => origWalk fuel siblings j + origLenAt fuel siblings j
termination_by (fuel, 0)

/-- One step of the sibling walk: `parent_child.consumed_length` if the
attribute exists, else `len(parent_child)`. -/
def origLenAt (fuel : Nat) (siblings : List (Node α)) (j : Nat) : Nat :=
  match fuel with
  | 0 => 0
  | fuel + 1 => origLenOf fuel siblings j (siblings.get? j)
termination_by (fuel, 0)

/-- Dispatch of the sibling walk on the looked-up node. -/
def origLenOf (fuel : Nat) (siblings : List (Node α)) (j : Nat) :
    Option (Node α) → Nat
  | some (.value _ t) => t.length
  | some (.opBinary r _) => r.length
  | some (.opUnary r _) => r.length
  | some (.result _ cl) => cl
  | some (.group gr ch) => origCL fuel gr ch siblings j
  | none => 0
termination_by _ => (fuel, 1)

end

/-- The `self.children[0].consumed_length` base of `Group.consumed_length`,
evaluated on the REDUCING CLONE's current children: a leading `Result`
exposes its `consumed_length`; a leading `Value` or operator raises
`AttributeError`, caught to `0`; an empty list would raise an uncaught
`IndexError` (callers guard this case).  A leading sub-Group evaluates its
own property, whose parent walk runs over the original enclosing group's
children and contributes `cpw`; at every reachable raise site the head is a
`Result` or an operator, so this branch never fires on a parsed tree. -/
def cl0 (fuel : Nat) (children : List (Node α)) (cpw : Nat) : Nat :=
  match children, fuel with
  | [], _ => 0
  | .value _ _ :: _, _ => 0
  | .opBinary _ _ :: _, _ => 0
  | .opUnary _ _ :: _, _ => 0
  | .result _ cl :: _, _ => cl
  | .group _ _ :: _, 0 => 0
  | .group _ ch :: _, fuel + 1 =>
      cl0 fuel ch (origWalk fuel ch ch.length + 1) + cpw

/-- The `try: left = items[index-1]; right = items[index+1]` block of
`OperatorBinary.consume`, with Python's negative-index semantics: at
`index = 0` the left lookup reads `items[-1]`, the LAST element; the
`IndexError` handler fires only if either lookup is out of range. -/
def binaryFetch (items : List (Node α)) (index : Nat) :
    Except PError (Node α × Node α) :=
  match pyGet items ((index : Int) - 1), pyGet items ((index : Int) + 1) with
  | some left, some right => .ok (left, right)
  | _, _ => .error (.invalidOperand msgLeftRightMissing none)

/-- Tail of `OperatorUnary.consume` after the right neighbour was consumed:
read `items[index+1].consumed_length` and `.value` (an `AttributeError` if
the consumed neighbour is not a `Result` — never the case after a successful
consume), build `Result(func(value), len(rep) + consumed_length)` at `index`
and delete position `index+1`. -/
def unaryFinish (items1 : List (Node α)) (index : Nat) (r : Str) (uf : α → α) :
    Option (Node α) → Except PError (List (Node α) × Int)
  | some (.result rv rcl) =>
      .ok ((items1.set index (.result (uf rv) (r.length + rcl))).eraseIdx
            (index + 1), index)
  | some (.value _ _) => .error .attributeError
  | some (.opBinary _ _) => .error .attributeError
  | some (.opUnary _ _) => .error .attributeError
  | some (.group _ _) => .error .attributeError
  | none => .error .attributeError

/-- The two deletions of `OperatorBinary.consume`: `del items[index+1]` then
`del items[index-1]` — the latter a Python negative index when `index = 0`,
deleting the LAST element of the once-shortened list. -/
def binaryDel (s1 : List (Node α)) (index : Nat) : List (Node α) :=
  if index = 0 then
    (s1.eraseIdx (index + 1)).eraseIdx ((s1.eraseIdx (index + 1)).length - 1)
  else (s1.eraseIdx (index + 1)).eraseIdx (index - 1)

/-- Tail of `OperatorBinary.consume` after the right neighbour was consumed:
read `items[index+1]`, build the combined `Result` at `index`, apply the two
deletions (`binaryDel`) and return `index - 1`. -/
def binaryFinish (items1 : List (Node α)) (index : Nat) (r : Str)
    (bf : α → α → α) (lv : α) (lcl : Nat) :
    Option (Node α) → Except PError (List (Node α) × Int)
  | some (.result rv rcl) =>
      .ok (binaryDel (items1.set index
        (.result (bf lv rv) (lcl + r.length + rcl))) index, (index : Int) - 1)
  | some (.value _ _) => .error .attributeError
  | some (.opBinary _ _) => .error .attributeError
  | some (.opUnary _ _) => .error .attributeError
  | some (.group _ _) => .error .attributeError
  | none => .error .attributeError

/-- Resume `OperatorUnary.consume` on the outcome of the right neighbour's
consume: propagate a failure, else read back `items[index+1]`. -/
def unaryRight (index : Nat) (r : Str) (uf : α → α) :
    Except PError (List (Node α) × Int) → Except PError (List (Node α) × Int)
  | .error e => .error e
  | .ok (items1, _) => unaryFinish items1 index r uf (items1.get? (index + 1))

/-- Resume `OperatorBinary.consume` on the outcome of the right neighbour's
consume: propagate a failure, else read back `items[index+1]`. -/
def binaryRight (index : Nat) (r : Str) (bf : α → α → α) (lv : α) (lcl : Nat) :
    Except PError (List (Node α) × Int) → Except PError (List (Node α) × Int)
  | .error e => .error e
  | .ok (items1, _) => binaryFinish items1 index r bf lv lcl (items1.get? (index + 1))

/-- Write a reduced subgroup's `Result` back into the enclosing items list
(`items[index] = result; return items, index`), propagating failures. -/
def groupWriteBack (items : List (Node α)) (index : Nat) :
    Except PError (Node α) → Except PError (List (Node α) × Int)
  | .error e => .error e
  | .ok r => .ok (items.set index r, index)

/-- The `except InvalidOperandError` handler of `Group.consume`: an
`InvalidOperandError` without a position is re-raised carrying
`self.consumed_length + 1` (passed in as `selfCL1`); every other error
propagates unchanged (`MissingOperatorError` is not caught). -/
def groupAttach (selfCL1 : Nat) : PError → PError
  | .invalidOperand _ none => .invalidOperand msgOperatorInvalid (some selfCL1)
  | .invalidOperand m (some i) => .invalidOperand m (some i)
  | .missingOperator m i => .missingOperator m i
  | .outOfFuel => .outOfFuel
  | .indexError => .indexError
  | .attributeError => .attributeError

/-- The `child_i != 0` branch of `Group.consume`: raise
`MissingOperatorError` at `self.consumed_length + 1`, computed from the
post-consume children (whose head is read — an `IndexError` if they are
empty). -/
def groupFail (fuel : Nat) (children' : List (Node α)) (childPW origPW : Nat) :
    Except PError (List (Node α)) :=
  match children' with
  | [] => .error .indexError
  | _ :: _ => .error (.missingOperator msgOperatorMissing
                (some (cl0 fuel children' childPW + origPW + 1)))

/-- When a grouping frames the group,
`result.consumed_length += len(self.grouping)` (an `AttributeError` if the
survivor is not a `Result` — unreachable from parsed trees); the root
returns the survivor as is. -/
def groupWrap (gr : Option Grouping) (r : Node α) : Except PError (Node α) :=
  match gr, r with
  | none, r => .ok r
  | some g, .result v cl => .ok (.result v (cl + g.len))
  | some _, .value _ _ => .error .attributeError
  | some _, .opBinary _ _ => .error .attributeError
  | some _, .opUnary _ _ => .error .attributeError
  | some _, .group _ _ => .error .attributeError

/-- The epilogue of `Group.consume`: `result = self.children[0]` (an
`IndexError` if none remain) and the delimiter-length bump (`groupWrap`). -/
def groupFinish (gr : Option Grouping) : List (Node α) → Except PError (Node α)
  | [] => .error .indexError
  | r :: _ => groupWrap gr r

/-- Apply the epilogue of `Group.consume` to the loop's outcome. -/
def groupReduceGo (gr : Option Grouping) :
    Except PError (List (Node α)) → Except PError (Node α)
  | .error e => .error e
  | .ok final => groupFinish gr final

mutual

/-- `items[index].consume(items, index, func)` — the polymorphic consume
protocol, dispatched on the node at `index` exactly as Python's dynamic
dispatch does:

* `Result`: the inherited `Consumable.consume`, the identity;
* `Value.consume`: apply the override function (else the stored one) to the
  text, producing `Result(func(text), len(text))` in place;
* `OperatorUnary.consume`: require a right neighbour, consume it, produce
  `Result(func(right.value), len(rep) + right.consumed_length)` at `index`
  and delete position `index+1`;
* `OperatorBinary.consume`: fetch both neighbours (`binaryFetch`), require
  the left to be a `Result`, consume the right, produce
  `Result(func(left.value, right.value), left.cl + len(rep) + right.cl)` at
  `index`, delete positions `index+1` and `index-1` (the latter wrapping to
  the last element when `index = 0`), and return index `index - 1`;
* `Group.consume`: reduce the subgroup (`groupReduce`, with the parent-walk
  summand `subPW` of this items list) and write the result back at `index`.

A failing call leaves `items` unchanged (each Python `consume` raises before
its first mutation of the shared list, or fails inside a subgroup whose own
children list is separate).  The returned index is an `Int`, since
`OperatorBinary.consume` at index 0 returns `-1`. -/
def consumeAt (fuel : Nat) (items : List (Node α)) (index : Nat)
    (func : Option (Str → α)) (subPW : Nat) :
    Except PError (List (Node α) × Int) :=
  match fuel with
  | 0 => .error .outOfFuel
  | fuel + 1 => consumeNode fuel items index func subPW (items.get? index)
termination_by (fuel, 0)

/-- Dispatch of the consume protocol on the node found at `index`. -/
def consumeNode (fuel : Nat) (items : List (Node α)) (index : Nat)
    (func : Option (Str → α)) (subPW : Nat) :
    Option (Node α) → Except PError (List (Node α) × Int)
  | none => .ok (items, index)
  | some (.result _ _) => .ok (items, index)
  | some (.value vf t) =>
      .ok (items.set index (.result ((func.getD vf) t) t.length), index)
  | some (.opUnary r uf) => unaryConsume fuel items index func subPW r uf
  | some (.opBinary r bf) => binaryConsume fuel items index func subPW r bf
  | some (.group gr2 ch2) => groupMember fuel items index func subPW gr2 ch2
termination_by _ => (fuel, 6)

/-- `OperatorUnary.consume` at `index`. -/
def unaryConsume (fuel : Nat) (items : List (Node α)) (index : Nat)
    (func : Option (Str → α)) (subPW : Nat) (r : Str) (uf : α → α) :
    Except PError (List (Node α) × Int) :=
  match pyGet items ((index : Int) + 1) with
  | none => .error (.invalidOperand msgRightMissing none)
  | some _ => unaryRight index r uf (consumeAt fuel items (index + 1) func subPW)
termination_by (fuel, 5)

/-- `OperatorBinary.consume` at `index`: fetch both neighbours, require the
left to be a `Result` (`binaryLeft`), consume the right, and combine. -/
def binaryConsume (fuel : Nat) (items : List (Node α)) (index : Nat)
    (func : Option (Str → α)) (subPW : Nat) (r : Str) (bf : α → α → α) :
    Except PError (List (Node α) × Int) :=
  match binaryFetch items index with
  | .error e => .error e
  | .ok (left, _) => binaryLeft fuel items index func subPW r bf left
termination_by (fuel, 5)

/-- The `isinstance(left, Result)` check of `OperatorBinary.consume` and,
when it passes, the consumption of the right neighbour. -/
def binaryLeft (fuel : Nat) (items : List (Node α)) (index : Nat)
    (func : Option (Str → α)) (subPW : Nat) (r : Str) (bf : α → α → α) :
    Node α → Except PError (List (Node α) × Int)
  | .result lv lcl =>
      binaryRight index r bf lv lcl (consumeAt fuel items (index + 1) func subPW)
  | .value _ _ => .error (.invalidOperand msgLeftNotResult none)
  | .opBinary _ _ => .error (.invalidOperand msgLeftNotResult none)
  | .opUnary _ _ => .error (.invalidOperand msgLeftNotResult none)
  | .group _ _ => .error (.invalidOperand msgLeftNotResult none)
termination_by _ => (fuel, 4)

/-- `Group.consume` invoked on a child group inside an items list: reduce the
subgroup (with the parent-walk summand `subPW` of this list) and write the
result back at `index`. -/
def groupMember (fuel : Nat) (items : List (Node α)) (index : Nat)
    (func : Option (Str → α)) (subPW : Nat) (gr2 : Option Grouping)
    (ch2 : List (Node α)) : Except PError (List (Node α) × Int) :=
  groupWriteBack items index (groupReduce fuel gr2 ch2 subPW func)
termination_by (fuel, 5)

/-- The `while child_i < len(self.children)` loop of `Group.consume`.
Each child is consumed; an `InvalidOperandError` without a position is
re-raised with `self.consumed_length + 1` attached (computed from the
pre-call children, which a failing consume leaves unchanged); a consume
returning a non-zero index means two operand-bearing children were adjacent
and raises `MissingOperatorError` with `self.consumed_length + 1` computed
from the post-call children.  `self.consumed_length` on the reducing clone
is `children[0]`'s consumed length (`cl0`) plus the clone's fixed
parent-walk summand `origPW` (see the section comment).  After a successful
step the index is `0`, so the loop continues at `child_i = 1`. -/
def groupLoop (fuel : Nat) (children : List (Node α)) (child_i : Nat)
    (childPW origPW : Nat) (func : Option (Str → α)) :
    Except PError (List (Node α)) :=
  match fuel with
  | 0 => .error .outOfFuel
  | fuel + 1 =>
    if child_i < children.length then
      groupStep fuel children childPW origPW func
        (consumeAt fuel children child_i func childPW)
    else .ok children
termination_by (fuel, 0)

/-- One pass of the loop body of `Group.consume`, applied to the outcome of
the child's consume: a failure goes through the `except` handler
(`groupAttach`, with `self.consumed_length + 1` from the pre-call children);
a success with non-zero index raises `MissingOperatorError` (`groupFail`,
with the post-call children); a success at index `0` continues the loop at
`child_i = 1`. -/
def groupStep (fuel : Nat) (children : List (Node α))
    (childPW origPW : Nat) (func : Option (Str → α)) :
    Except PError (List (Node α) × Int) → Except PError (List (Node α))
  | .error e =>
      .error (groupAttach (cl0 fuel children childPW + origPW + 1) e)
  | .ok (children', i') =>
      if i' = 0 then groupLoop fuel children' 1 childPW origPW func
      else groupFail fuel children' childPW origPW
termination_by _ => (fuel, 1)

/-- `Group.consume` for a group with grouping `gr` and children `children`,
whose clone-side parent-walk summand is `origPW` (`0` for the root): run the
child loop, then the remaining single child is the group's `Result`, whose
`consumed_length` grows by `len(self.grouping)` when a grouping frames the
group (an empty children list raises `IndexError`; a non-`Result` survivor
raises `AttributeError` on the `+=`, unreachable from parsed trees). -/
def groupReduce (fuel : Nat) (gr : Option Grouping) (children : List (Node α))
    (origPW : Nat) (func : Option (Str → α)) : Except PError (Node α) :=
  match fuel with
  | 0 => .error .outOfFuel
  | fuel + 1 =>
    groupReduceGo gr
      (groupLoop fuel children 0 (origWalk fuel children children.length + 1)
        origPW func)
termination_by (fuel, 1)

end

mutual

/-- The composed `__deepcopy__` methods: a structurally identical copy.
The `parent` field a copied `Group` receives — the ORIGINAL parent object,
not its copy — has no counterpart in the pure tree; its behavioural effect
on error offsets is the `origPW`/`childPW` threading above, and the field
itself is modelled in the heap embedding at the end of this file. -/
def deepcopyNode : Node α → Node α
  | .value f t => .value f t
  | .opBinary r f => .opBinary r f
  | .opUnary r f => .opUnary r f
  | .result v cl => .result v cl
  | .group gr ch => .group gr (deepcopyList ch)

/-- `deepcopy` of a children list. -/
def deepcopyList : List (Node α) → List (Node α)
  | [] => []
  | n :: ns => deepcopyNode n :: deepcopyList ns

end

/-- `Group.evaluate(func)`: reduce a deep copy of the group, with
`items=None, index=None` so the final `Result` is returned directly.  The
model covers evaluating a root group (`parent is None`, summand `0`), which
is how `evaluate` is used.  Calling it on a non-`Group` node has no Python
counterpart (`evaluate` is a `Group` method). -/
def evaluate (fuel : Nat) (g : Node α) (func : Option (Str → α)) :
    Except PError (Node α) :=
  match deepcopyNode g with
  | .group gr ch => groupReduce fuel gr ch 0 func
  | _ => .error .attributeError

/-- Observable outcome of an evaluation: the final `Result`'s value and
`consumed_length`, if reduction succeeded. -/
def resultOf : Except PError (Node α) → Option (α × Nat)
  | .ok (.result v cl) => some (v, cl)
  | _ => none

/-- Observable failure of an evaluation. -/
def errOf : Except PError (Node α) → Option PError
  | .error e => some e
  | _ => none

/-! ## Forgetting the value domain

Reduction control flow never inspects a computed `α` value: whether a
reduction succeeds, and every `consumed_length` and error index it produces,
depend only on the tree's shape.  This is made precise by mapping all values
and functions to `Unit` and showing `consumeAt` commutes with the mapping. -/

mutual

/-- Erase computed values and evaluation functions from a node. -/
def eraseN : Node α → Node Unit
  | .value _ t => .value (fun _ => ()) t
  | .opBinary r _ => .opBinary r (fun _ _ => ())
  | .opUnary r _ => .opUnary r (fun _ => ())
  | .result _ cl => .result () cl
  | .group gr ch => .group gr (eraseL ch)

/-- Erase a list of nodes. -/
def eraseL : List (Node α) → List (Node Unit)
  | [] => []
  | n :: ns => eraseN n :: eraseL ns

end

/-- Erase an optional override evaluation function. -/
def eraseF : Option (Str → α) → Option (Str → Unit) :=
  Option.map (fun _ => (fun _ => ()))

/-- Erase the values in a `consumeAt` outcome. -/
def eraseRes : Except PError (List (Node α) × Int) →
    Except PError (List (Node Unit) × Int)
  | .error e => .error e
  | .ok (l, i) => .ok (eraseL l, i)

/-- Erase the values in a `groupLoop` outcome. -/
def eraseLRes : Except PError (List (Node α)) → Except PError (List (Node Unit))
  | .error e => .error e
  | .ok l => .ok (eraseL l)

/-- Erase the values in a `groupReduce` outcome. -/
def eraseNRes : Except PError (Node α) → Except PError (Node Unit)
  | .error e => .error e
  | .ok n => .ok (eraseN n)

/-! ## A heap model of `Group.__deepcopy__`

The pure tree cannot carry the `parent` back-reference (it would make the
structure cyclic), so the copying behaviour of `Group.__deepcopy__` — in
particular, which object the copy's `parent` field receives — is modelled on
an explicit heap.  Only `Group` objects need heap identity; all other node
kinds stay inline.  A heap is a list of `Group` objects, an address is an
index into it, and allocation appends. -/

/-- A node as stored in a heap-resident children list: sub-`Group`s are
references, everything else is inline. -/
inductive HNode (α : Type) where
  | value (func : Str → α) (text : Str)
  | opBinary (rep : Str) (func : α → α → α)
  | opUnary (rep : Str) (func : α → α)
  | result (val : α) (consumed_length : Nat)
  | gref (addr : Nat)

/-- A `Group` object on the heap: its `parent` back-reference (an address,
or `none` for the root), its `grouping`, and its `children`. -/
structure HGroup (α : Type) where
  parent : Option Nat
  grouping : Option Grouping
  children : List (HNode α)

/-- A heap of `Group` objects; the address of an object is its index. -/
abbrev Heap (α : Type) := List (HGroup α)

/-- Allocation step of `Group.__deepcopy__`: given the copied children,
append the copy — with `parent` and `grouping` passed through — to the heap;
the copy's address is the previous heap length. -/
def deepcopyHFin (p : Option Nat) (gr : Option Grouping) :
    Option (Heap α × List (HNode α)) → Option (Heap α × Nat)
  | none => none
  | some (h1, ch') => some (h1 ++ [⟨p, gr, ch'⟩], h1.length)

/-- Cons a copied element onto the copy of the rest of a children list. -/
def deepcopyHTail (n : HNode α) :
    Option (Heap α × List (HNode α)) → Option (Heap α × List (HNode α))
  | none => none
  | some (h2, ns') => some (h2, n :: ns')

mutual

/-- `Group.__deepcopy__` on the heap, as invoked by `deepcopy(self)` in
`Group.evaluate`: for the group at `a`, allocate a copy whose `parent`
field is `self.parent` — the ORIGINAL parent's address, NOT remapped to any
copy — whose grouping is copied structurally, and whose children are deep
copies (`deepcopy(self.children)`); each nested `Group` child recurses.
Existing heap cells are never modified, only new cells appended (the copy is
allocated here after its children's copies; CPython allocates it before —
only the numbering of fresh addresses differs).  The per-call `memodict` is
irrelevant on trees, where no group is reached twice within one call.
Fuel bounds the recursion depth (`none` models a cyclic or dangling heap). -/
def deepcopyH (fuel : Nat) (h : Heap α) (a : Nat) : Option (Heap α × Nat) :=
  match fuel with
  | 0 => none
  | fuel + 1 => deepcopyHGo fuel h (h.get? a)
termination_by (fuel, 2)

/-- Dispatch of `__deepcopy__` on the object found at the copied address
(`none`: the address dangles). -/
def deepcopyHGo (fuel : Nat) (h : Heap α) :
    Option (HGroup α) → Option (Heap α × Nat)
  | none => none
  | some g => deepcopyHFin g.parent g.grouping (deepcopyHL fuel h g.children)
termination_by _ => (fuel, 1)

/-- `deepcopy` of a children list on the heap: copy each element in order,
recursing into `Group` references, threading the growing heap. -/
def deepcopyHL (fuel : Nat) (h : Heap α) (l : List (HNode α)) :
    Option (Heap α × List (HNode α)) :=
  match fuel with
  | 0 => none
  | fuel + 1 =>
    match l with
    | [] => some (h, [])
    | .gref a :: ns => deepcopyHRef fuel ns (deepcopyH fuel h a)
    | .value f t :: ns => deepcopyHTail (.value f t) (deepcopyHL fuel h ns)
    | .opBinary r f :: ns => deepcopyHTail (.opBinary r f) (deepcopyHL fuel h ns)
    | .opUnary r f :: ns => deepcopyHTail (.opUnary r f) (deepcopyHL fuel h ns)
    | .result v cl :: ns => deepcopyHTail (.result v cl) (deepcopyHL fuel h ns)
termination_by (fuel, 0)

/-- Continue copying a children list after a `Group` reference's copy: the
fresh address replaces the reference, and the rest is copied on the grown
heap. -/
def deepcopyHRef (fuel : Nat) (ns : List (HNode α)) :
    Option (Heap α × Nat) → Option (Heap α × List (HNode α))
  | none => none
  | some (h1, a') => deepcopyHTail (.gref a') (deepcopyHL fuel h1 ns)
termination_by _ => (fuel, 3)

end

/-! ## The concrete configuration of the module's example

Operators `&&`/`||`/`!` bound to the boolean functions, grouping `(`/`)`,
and the "does the (lower-cased) token occur in the target string" evaluation
function, as in the docstring example and in §8 of the specification. -/

/-- The `("(", ")")` grouping. -/
def paren : Grouping := ⟨"(".toList, ")".toList⟩

/-- `OperatorBinary("&&", operator.and_)` on booleans. -/
def opAnd : Oper Bool := .binary "&&".toList (fun a b => a && b)

/-- `OperatorBinary("||", operator.or_)` on booleans. -/
def opOr : Oper Bool := .binary "||".toList (fun a b => a || b)

/-- `OperatorUnary("!", operator.not_)` on booleans. -/
def opNot : Oper Bool := .unary "!".toList (fun a => !a)

/-- The example's operator list, in its configured order. -/
def boolOps : List (Oper Bool) := [opAnd, opOr, opNot]

/-- The example's filter string. -/
def filterInput : Str := "marley && (stephen && !(ziggy || damian) || bob)".toList

/-- `lambda parser_value: parser_value in song.lower()`. -/
def matchFunc (song : Str) : Str → Bool := fun v => pyIn v (pyLower song)

/-- Parse with the boolean example configuration (the default evaluation
function is irrelevant here: every `evaluate` below overrides it). -/
def parseBool (s : Str) : Option (Node Bool) :=
  parse boolOps [paren] (fun _ => false) s

/-- Parse and evaluate with the boolean example configuration against a
target string, returning the observable outcome. -/
def runBool (s : Str) (song : Str) : Option (Bool × Nat) :=
  match parseBool s with
  | none => none
  | some root => resultOf (evaluate 1000 root (some (matchFunc song)))

/-- Parse and evaluate with the boolean example configuration, returning the
failure, if any. -/
def runBoolErr (s : Str) : Option PError :=
  match parseBool s with
  | none => none
  | some root => errOf (evaluate 1000 root (some (fun _ => true)))

/-- The identity evaluation function (`parse`'s default `lambda x: x`). -/
def idEval : Str → Str := fun t => t

/-- Parse with no operators and no groupings, values evaluating to their own
text — the minimal configuration. -/
def parseId (s : Str) : Option (Node Str) :=
  parse ([] : List (Oper Str)) [] idEval s

/-! ## Executable mirrors of the fueled engines

The mutual engines above are compiled by well-founded recursion, which the
kernel cannot evaluate on concrete inputs.  The same algorithms are restated
here as a single structural recursion on the fuel, building at each level
the tuple of the functions of that level from the tuple one level below;
these mirrors are proved pointwise equal to the engines and give the
kernel-checkable evaluations on concrete inputs. -/

/-- The tuple of consumed-length functions at one fuel level:
(`origCL`, `origWalk`, `origLenAt`). -/
def OrigT (α : Type) : Type :=
  (Option Grouping → List (Node α) → List (Node α) → Nat → Nat) ×
  (List (Node α) → Nat → Nat) ×
  (List (Node α) → Nat → Nat)

/-- `origHead` with the recursive occurrence abstracted out. -/
def origHeadAux (cl : Option Grouping → List (Node α) → List (Node α) → Nat → Nat) :
    List (Node α) → Nat
  | [] => 0
  | .value _ _ :: _ => 0
  | .opBinary _ _ :: _ => 0
  | .opUnary _ _ :: _ => 0
  | .result _ cl2 :: _ => cl2
  | .group gr2 ch2 :: rest => cl gr2 ch2 (.group gr2 ch2 :: rest) 0

/-- `origLenOf` with the recursive occurrence abstracted out. -/
def origLenOfAux
    (cl : Option Grouping → List (Node α) → List (Node α) → Nat → Nat)
    (siblings : List (Node α)) (j : Nat) : Option (Node α) → Nat
  | some (.value _ t) => t.length
  | some (.opBinary r _) => r.length
  | some (.opUnary r _) => r.length
  | some (.result _ cl2) => cl2
  | some (.group gr ch) => cl gr ch siblings j
  | none => 0

/-- The consumed-length tuple at each fuel, by structural recursion. -/
def origAt : Nat → OrigT α
  | 0 => (fun _ _ _ _ => 0, fun _ _ => 0, fun _ _ => 0)
  | fuel + 1 =>
    let e := origAt fuel
    (fun gr children siblings idx =>
       origHeadAux e.1 children +
         (if idx = 0 then startLen gr else e.2.1 siblings idx + 1),
     fun siblings idx =>
       match idx with
       | 0 => 0
       | j + 1 => e.2.1 siblings j + e.2.2 siblings j,
     fun siblings j => origLenOfAux e.1 siblings j (siblings.get? j))

/-- Executable mirror of `cl0`. -/
def cl0E (fuel : Nat) (children : List (Node α)) (cpw : Nat) : Nat :=
  match children, fuel with
  | [], _ => 0
  | .value _ _ :: _, _ => 0
  | .opBinary _ _ :: _, _ => 0
  | .opUnary _ _ :: _, _ => 0
  | .result _ cl :: _, _ => cl
  | .group _ _ :: _, 0 => 0
  | .group _ ch :: _, fuel + 1 =>
      cl0E fuel ch ((origAt fuel).2.1 ch ch.length + 1) + cpw

/-- The tuple of reduction functions at one fuel level:
(`consumeAt`, `groupLoop`, `groupReduce`). -/
def EngT (α : Type) : Type :=
  (List (Node α) → Nat → Option (Str → α) → Nat →
      Except PError (List (Node α) × Int)) ×
  (List (Node α) → Nat → Nat → Nat → Option (Str → α) →
      Except PError (List (Node α))) ×
  (Option Grouping → List (Node α) → Nat → Option (Str → α) →
      Except PError (Node α))

/-- The reduction tuple at each fuel, by structural recursion; each level's
body is the respective engine's body with the recursive calls replaced by
the tuple one level below. -/
def engineAt : Nat → EngT α
  | 0 =>
    (fun _ _ _ _ => .error .outOfFuel,
     fun _ _ _ _ _ => .error .outOfFuel,
     fun _ _ _ _ => .error .outOfFuel)
  | fuel + 1 =>
    let e := engineAt fuel
    (fun items index func subPW =>
       match items.get? index with
       | none => .ok (items, index)
       | some (.result _ _) => .ok (items, index)
       | some (.value vf t) =>
           .ok (items.set index (.result ((func.getD vf) t) t.length), index)
       | some (.opUnary r uf) =>
           match pyGet items ((index : Int) + 1) with
           | none => .error (.invalidOperand msgRightMissing none)
           | some _ => unaryRight index r uf (e.1 items (index + 1) func subPW)
       | some (.opBinary r bf) =>
           match binaryFetch items index with
           | .error e2 => .error e2
           | .ok (left, _) =>
               match left with
               | .result lv lcl =>
                   binaryRight index r bf lv lcl (e.1 items (index + 1) func subPW)
               | .value _ _ => .error (.invalidOperand msgLeftNotResult none)
               | .opBinary _ _ => .error (.invalidOperand msgLeftNotResult none)
               | .opUnary _ _ => .error (.invalidOperand msgLeftNotResult none)
               | .group _ _ => .error (.invalidOperand msgLeftNotResult none)
       | some (.group gr2 ch2) =>
           groupWriteBack items index (e.2.2 gr2 ch2 subPW func),
     fun children child_i childPW origPW func =>
       if child_i < children.length then
         match e.1 children child_i func childPW with
         | .error e2 =>
             .error (groupAttach (cl0E fuel children childPW + origPW + 1) e2)
         | .ok (children', i') =>
             if i' = 0 then e.2.1 children' 1 childPW origPW func
             else
               match children' with
               | [] => .error .indexError
               | _ :: _ => .error (.missingOperator msgOperatorMissing
                     (some (cl0E fuel children' childPW + origPW + 1)))
       else .ok children,
     fun gr children origPW func =>
       groupReduceGo gr
         (e.2.1 children 0 ((origAt fuel).2.1 children children.length + 1)
           origPW func))

/-- Executable mirror of `evaluate` (a deep copy of a parsed tree is the
tree itself, see `deepcopyNode_id`). -/
def evaluateE (fuel : Nat) (g : Node α) (func : Option (Str → α)) :
    Except PError (Node α) :=
  match g with
  | .group gr ch => (engineAt fuel).2.2 gr ch 0 func
  | _ => .error .attributeError

/-- Executable mirror of `runBool`. -/
def runBoolE (s : Str) (song : Str) : Option (Bool × Nat) :=
  match parseBool s with
  | none => none
  | some root => resultOf (evaluateE 1000 root (some (matchFunc song)))

/-- Executable mirror of `runBoolErr`. -/
def runBoolErrE (s : Str) : Option PError :=
  match parseBool s with
  | none => none
  | some root => errOf (evaluateE 1000 root (some (fun _ => true)))

/-- The pair of heap-copy functions at one fuel level:
(`deepcopyH`, `deepcopyHL`). -/
def DeepT (α : Type) : Type :=
  (Heap α → Nat → Option (Heap α × Nat)) ×
  (Heap α → List (HNode α) → Option (Heap α × List (HNode α)))

/-- The heap-copy pair at each fuel, by structural recursion. -/
def deepAt : Nat → DeepT α
  | 0 => (fun _ _ => none, fun _ _ => none)
  | fuel + 1 =>
    let e := deepAt fuel
    (fun h a =>
       match h.get? a with
       | none => none
       | some g => deepcopyHFin g.parent g.grouping (e.2 h g.children),
     fun h l =>
       match l with
       | [] => some (h, [])
       | .gref a :: ns =>
           match e.1 h a with
           | none => none
           | some (h1, a') => deepcopyHTail (.gref a') (e.2 h1 ns)
       | .value f t :: ns => deepcopyHTail (.value f t) (e.2 h ns)
       | .opBinary r f :: ns => deepcopyHTail (.opBinary r f) (e.2 h ns)
       | .opUnary r f :: ns => deepcopyHTail (.opUnary r f) (e.2 h ns)
       | .result v cl :: ns => deepcopyHTail (.result v cl) (e.2 h ns))

/-! ## Basic lemmas about the model's primitives -/

theorem pyGet_natCast {β : Type} (l : List β) (n : Nat) :
    pyGet l (n : Int) = l.get? n := by
  simp [pyGet]

theorem pyGet_nat_add_one {β : Type} (l : List β) (n : Nat) :
    pyGet l ((n : Int) + 1) = l.get? (n + 1) := by
  have h : ((n : Int) + 1) = ((n + 1 : Nat) : Int) := by push_cast; ring
  rw [h, pyGet_natCast]

theorem pyGet_nat_sub_one {β : Type} (l : List β) (n : Nat) (h : 1 ≤ n) :
    pyGet l ((n : Int) - 1) = l.get? (n - 1) := by
  have h2 : ((n : Int) - 1) = ((n - 1 : Nat) : Int) := by omega
  rw [h2, pyGet_natCast]

theorem get?_eraseIdx_of_lt {β : Type} (l : List β) (i j : Nat) (h : j < i) :
    (l.eraseIdx i).get? j = l.get? j := by
  rw [List.get?_eq_getElem?, List.get?_eq_getElem?]
  exact List.getElem?_eraseIdx_of_lt l i j h

theorem get?_set_ne' {β : Type} (l : List β) (i j : Nat) (x : β) (h : i ≠ j) :
    (l.set i x).get? j = l.get? j :=
  List.get?_set_ne x l h

theorem tokenSum_append (l₁ l₂ : List (Node α)) :
    tokenSum (l₁ ++ l₂) = tokenSum l₁ + tokenSum l₂ := by
  induction l₁ with
  | nil => simp [tokenSum]
  | cons n ns ih => simp [tokenSum, ih]; omega

theorem tokenSum_set (l : List (Node α)) (i : Nat) (x y : Node α)
    (h : l.get? i = some y) :
    tokenSum (l.set i x) + tokenLen y = tokenSum l + tokenLen x := by
  induction l generalizing i with
  | nil => simp at h
  | cons n ns ih =>
    cases i with
    | zero =>
      simp only [List.get?_cons_zero, Option.some.injEq] at h
      subst h
      simp [tokenSum]
      omega
    | succ i =>
      simp only [List.get?_cons_succ] at h
      simp only [List.set, tokenSum]
      have := ih i h
      omega

theorem tokenSum_eraseIdx (l : List (Node α)) (i : Nat) (y : Node α)
    (h : l.get? i = some y) :
    tokenSum (l.eraseIdx i) + tokenLen y = tokenSum l := by
  induction l generalizing i with
  | nil => simp at h
  | cons n ns ih =>
    cases i with
    | zero =>
      simp only [List.get?_cons_zero, Option.some.injEq] at h
      subst h
      simp [List.eraseIdx, tokenSum]
      omega
    | succ i =>
      simp only [List.get?_cons_succ] at h
      simp only [List.eraseIdx, tokenSum]
      have := ih i h
      omega

mutual

theorem deepcopyNode_id : ∀ (n : Node α), deepcopyNode n = n
  | .value _ _ => rfl
  | .opBinary _ _ => rfl
  | .opUnary _ _ => rfl
  | .result _ _ => rfl
  | .group gr ch => by rw [deepcopyNode, deepcopyList_id ch]

theorem deepcopyList_id : ∀ (l : List (Node α)), deepcopyList l = l
  | [] => rfl
  | n :: ns => by rw [deepcopyList, deepcopyNode_id n, deepcopyList_id ns]

end

/-! ## Value erasure commutes with the list primitives -/

theorem length_eraseL : ∀ (l : List (Node α)), (eraseL l).length = l.length
  | [] => rfl
  | _ :: ns => by rw [eraseL]; simp [length_eraseL ns]

theorem get?_eraseL : ∀ (l : List (Node α)) (i : Nat),
    (eraseL l).get? i = (l.get? i).map eraseN
  | [], i => by cases i <;> rfl
  | _ :: _, 0 => rfl
  | _ :: ns, i + 1 => by rw [eraseL]; simpa using get?_eraseL ns i

theorem pyGet_eraseL (l : List (Node α)) (i : Int) :
    pyGet (eraseL l) i = (pyGet l i).map eraseN := by
  simp only [pyGet, length_eraseL]
  split
  · exact get?_eraseL l _
  · split
    · exact get?_eraseL l _
    · rfl

theorem eraseL_append : ∀ (l₁ l₂ : List (Node α)),
    eraseL (l₁ ++ l₂) = eraseL l₁ ++ eraseL l₂
  | [], _ => rfl
  | n :: ns, l₂ => by
    rw [List.cons_append, eraseL, eraseL, eraseL_append ns, List.cons_append]

theorem eraseL_set : ∀ (l : List (Node α)) (i : Nat) (x : Node α),
    eraseL (l.set i x) = (eraseL l).set i (eraseN x)
  | [], i, _ => by cases i <;> rfl
  | _ :: _, 0, _ => rfl
  | n :: ns, i + 1, x => by
    rw [List.set_cons_succ, eraseL, eraseL, eraseL_set ns, List.set_cons_succ]

theorem eraseL_eraseIdx : ∀ (l : List (Node α)) (i : Nat),
    eraseL (l.eraseIdx i) = (eraseL l).eraseIdx i
  | [], i => by cases i <;> rfl
  | _ :: _, 0 => rfl
  | n :: ns, i + 1 => by
    rw [List.eraseIdx_cons_succ, eraseL, eraseL, eraseL_eraseIdx ns,
      List.eraseIdx_cons_succ]

theorem isResult_eraseN (n : Node α) : isResult (eraseN n) = isResult n := by
  cases n <;> rfl

mutual

theorem tokenLen_eraseN : ∀ (n : Node α), tokenLen (eraseN n) = tokenLen n
  | .value _ _ => rfl
  | .opBinary _ _ => rfl
  | .opUnary _ _ => rfl
  | .result _ _ => rfl
  | .group _ ch => by
    rw [eraseN, tokenLen, tokenLen, tokenSum_eraseL ch]

theorem tokenSum_eraseL : ∀ (l : List (Node α)), tokenSum (eraseL l) = tokenSum l
  | [] => rfl
  | n :: ns => by rw [eraseL, tokenSum, tokenSum, tokenLen_eraseN n, tokenSum_eraseL ns]

end

/-! Unfolding equations for the fueled consumed-length functions. -/

theorem origCL_zero (gr : Option Grouping) (ch sib : List (Node α)) (idx : Nat) :
    origCL 0 gr ch sib idx = 0 := by
  rw [origCL.eq_def]

theorem origCL_succ (fuel : Nat) (gr : Option Grouping) (ch sib : List (Node α))
    (idx : Nat) :
    origCL (fuel + 1) gr ch sib idx =
      origHead fuel ch
        + (if idx = 0 then startLen gr else origWalk fuel sib idx + 1) := by
  rw [origCL.eq_def]

theorem origWalk_zero (sib : List (Node α)) (idx : Nat) :
    origWalk 0 sib idx = 0 := by
  rw [origWalk.eq_def]

theorem origWalk_succ_zero (fuel : Nat) (sib : List (Node α)) :
    origWalk (fuel + 1) sib 0 = 0 := by
  rw [origWalk.eq_def]

theorem origWalk_succ_succ (fuel : Nat) (sib : List (Node α)) (j : Nat) :
    origWalk (fuel + 1) sib (j + 1) =
      origWalk fuel sib j + origLenAt fuel sib j := by
  rw [origWalk.eq_def]

theorem origLenAt_zero (sib : List (Node α)) (j : Nat) :
    origLenAt 0 sib j = 0 := by
  rw [origLenAt.eq_def]

theorem origLenAt_succ (fuel : Nat) (sib : List (Node α)) (j : Nat) :
    origLenAt (fuel + 1) sib j = origLenOf fuel sib j (sib.get? j) := by
  rw [origLenAt.eq_def]

mutual

theorem origHead_eraseL : ∀ (fuel : Nat) (l : List (Node α)),
    origHead fuel (eraseL l) = origHead fuel l
  | _, [] => by rw [eraseL, origHead, origHead]
  | _, .value _ _ :: _ => by rw [eraseL, eraseN, origHead, origHead]
  | _, .opBinary _ _ :: _ => by rw [eraseL, eraseN, origHead, origHead]
  | _, .opUnary _ _ :: _ => by rw [eraseL, eraseN, origHead, origHead]
  | _, .result _ _ :: _ => by rw [eraseL, eraseN, origHead, origHead]
  | fuel, .group gr2 ch2 :: tl => by
    rw [eraseL, eraseN, origHead, origHead]
    have h := origCL_eraseL fuel gr2 ch2 (Node.group gr2 ch2 :: tl) 0
    rw [eraseL, eraseN] at h
    exact h
termination_by fuel _l => (fuel, 1)

theorem origCL_eraseL : ∀ (fuel : Nat) (gr : Option Grouping)
    (ch sib : List (Node α)) (idx : Nat),
    origCL fuel gr (eraseL ch) (eraseL sib) idx = origCL fuel gr ch sib idx
  | 0, gr, ch, sib, idx => by rw [origCL_zero, origCL_zero]
  | fuel + 1, gr, ch, sib, idx => by
    rw [origCL_succ, origCL_succ, origHead_eraseL fuel ch]
    by_cases h : idx = 0
    · simp [h]
    · simp only [h, if_false]
      rw [origWalk_eraseL fuel sib idx]
termination_by fuel _gr _ch _sib _idx => (fuel, 0)

theorem origWalk_eraseL : ∀ (fuel : Nat) (sib : List (Node α)) (idx : Nat),
    origWalk fuel (eraseL sib) idx = origWalk fuel sib idx
  | 0, _, _ => by rw [origWalk_zero, origWalk_zero]
  | _ + 1, _, 0 => by rw [origWalk_succ_zero, origWalk_succ_zero]
  | fuel + 1, sib, j + 1 => by
    rw [origWalk_succ_succ, origWalk_succ_succ, origWalk_eraseL fuel sib j,
      origLenAt_eraseL fuel sib j]
termination_by fuel _sib _idx => (fuel, 0)

theorem origLenAt_eraseL : ∀ (fuel : Nat) (sib : List (Node α)) (j : Nat),
    origLenAt fuel (eraseL sib) j = origLenAt fuel sib j
  | 0, _, _ => by rw [origLenAt_zero, origLenAt_zero]
  | fuel + 1, sib, j => by
    rw [origLenAt_succ, origLenAt_succ, get?_eraseL]
    cases h : sib.get? j with
    | none => rw [Option.map_none', origLenOf, origLenOf]
    | some n =>
      rw [Option.map_some']
      cases n with
      | value f t => rw [eraseN, origLenOf, origLenOf]
      | opBinary r f => rw [eraseN, origLenOf, origLenOf]
      | opUnary r f => rw [eraseN, origLenOf, origLenOf]
      | result v cl => rw [eraseN, origLenOf, origLenOf]
      | group gr2 ch2 =>
        rw [eraseN, origLenOf, origLenOf]
        exact origCL_eraseL fuel gr2 ch2 sib j
termination_by fuel _sib _j => (fuel, 0)

end

theorem cl0_eraseL : ∀ (fuel : Nat) (l : List (Node α)) (cpw : Nat),
    cl0 fuel (eraseL l) cpw = cl0 fuel l cpw
  | fuel, [], cpw => by rw [eraseL, cl0.eq_def, cl0.eq_def]
  | fuel, .value _ _ :: tl, cpw => by
    rw [eraseL, eraseN, cl0.eq_def, cl0.eq_def]
  | fuel, .opBinary _ _ :: tl, cpw => by
    rw [eraseL, eraseN, cl0.eq_def, cl0.eq_def]
  | fuel, .opUnary _ _ :: tl, cpw => by
    rw [eraseL, eraseN, cl0.eq_def, cl0.eq_def]
  | fuel, .result _ _ :: tl, cpw => by
    rw [eraseL, eraseN, cl0.eq_def, cl0.eq_def]
  | 0, .group _ _ :: tl, cpw => by
    rw [eraseL, eraseN, cl0.eq_def, cl0.eq_def]
  | fuel + 1, .group gr ch :: tl, cpw => by
    rw [eraseL, eraseN, cl0.eq_def, cl0.eq_def]
    show cl0 fuel (eraseL ch) (origWalk fuel (eraseL ch) (eraseL ch).length + 1) + cpw =
      cl0 fuel ch (origWalk fuel ch ch.length + 1) + cpw
    rw [length_eraseL, origWalk_eraseL fuel ch ch.length, cl0_eraseL fuel ch _]

/-! ## Unfolding equations and inversion lemmas for the reduction engine -/

theorem consumeAt_zero (items : List (Node α)) (index : Nat)
    (func : Option (Str → α)) (subPW : Nat) :
    consumeAt 0 items index func subPW = .error .outOfFuel := by
  rw [consumeAt.eq_def]

theorem consumeAt_succ (fuel : Nat) (items : List (Node α)) (index : Nat)
    (func : Option (Str → α)) (subPW : Nat) :
    consumeAt (fuel + 1) items index func subPW =
      consumeNode fuel items index func subPW (items.get? index) := by
  rw [consumeAt.eq_def]

theorem groupLoop_zero (children : List (Node α)) (child_i childPW origPW : Nat)
    (func : Option (Str → α)) :
    groupLoop 0 children child_i childPW origPW func = .error .outOfFuel := by
  rw [groupLoop.eq_def]

theorem groupLoop_succ (fuel : Nat) (children : List (Node α))
    (child_i childPW origPW : Nat) (func : Option (Str → α)) :
    groupLoop (fuel + 1) children child_i childPW origPW func =
      if child_i < children.length then
        groupStep fuel children childPW origPW func
          (consumeAt fuel children child_i func childPW)
      else .ok children := by
  rw [groupLoop.eq_def]

theorem groupReduce_zero (gr : Option Grouping) (children : List (Node α))
    (origPW : Nat) (func : Option (Str → α)) :
    groupReduce 0 gr children origPW func = .error .outOfFuel := by
  rw [groupReduce.eq_def]

theorem groupReduce_succ (fuel : Nat) (gr : Option Grouping)
    (children : List (Node α)) (origPW : Nat) (func : Option (Str → α)) :
    groupReduce (fuel + 1) gr children origPW func =
      groupReduceGo gr
        (groupLoop fuel children 0 (origWalk fuel children children.length + 1)
          origPW func) := by
  rw [groupReduce.eq_def]

theorem unaryConsume_none (fuel : Nat) (items : List (Node α)) (index : Nat)
    (func : Option (Str → α)) (subPW : Nat) (r : Str) (uf : α → α)
    (h : pyGet items ((index : Int) + 1) = none) :
    unaryConsume fuel items index func subPW r uf =
      .error (.invalidOperand msgRightMissing none) := by
  rw [unaryConsume.eq_def, h]

theorem unaryConsume_some (fuel : Nat) (items : List (Node α)) (index : Nat)
    (func : Option (Str → α)) (subPW : Nat) (r : Str) (uf : α → α)
    (x : Node α) (h : pyGet items ((index : Int) + 1) = some x) :
    unaryConsume fuel items index func subPW r uf =
      unaryRight index r uf (consumeAt fuel items (index + 1) func subPW) := by
  rw [unaryConsume.eq_def, h]

theorem binaryConsume_err (fuel : Nat) (items : List (Node α)) (index : Nat)
    (func : Option (Str → α)) (subPW : Nat) (r : Str) (bf : α → α → α)
    (e : PError) (h : binaryFetch items index = .error e) :
    binaryConsume fuel items index func subPW r bf = .error e := by
  rw [binaryConsume.eq_def, h]

theorem binaryConsume_ok (fuel : Nat) (items : List (Node α)) (index : Nat)
    (func : Option (Str → α)) (subPW : Nat) (r : Str) (bf : α → α → α)
    (left right : Node α) (h : binaryFetch items index = .ok (left, right)) :
    binaryConsume fuel items index func subPW r bf =
      binaryLeft fuel items index func subPW r bf left := by
  rw [binaryConsume.eq_def, h]

theorem binaryFetch_ok (items : List (Node α)) (index : Nat)
    (left right : Node α) (h : binaryFetch items index = .ok (left, right)) :
    pyGet items ((index : Int) - 1) = some left ∧
      pyGet items ((index : Int) + 1) = some right := by
  rw [binaryFetch] at h
  cases h1 : pyGet items ((index : Int) - 1) with
  | none => rw [h1] at h; simp at h
  | some a =>
    cases h2 : pyGet items ((index : Int) + 1) with
    | none => rw [h1, h2] at h; simp at h
    | some b =>
      rw [h1, h2] at h
      simp only [Except.ok.injEq, Prod.mk.injEq] at h
      obtain ⟨ha, hb⟩ := h
      subst ha
      subst hb
      exact ⟨rfl, rfl⟩

theorem unaryRight_ok (index : Nat) (r : Str) (uf : α → α)
    (res : Except PError (List (Node α) × Int)) (items' : List (Node α))
    (i' : Int) (h : unaryRight index r uf res = .ok (items', i')) :
    ∃ items1 j, res = .ok (items1, j) ∧
      unaryFinish items1 index r uf (items1.get? (index + 1)) = .ok (items', i') := by
  cases res with
  | error e => rw [unaryRight] at h; simp at h
  | ok p =>
    obtain ⟨items1, j⟩ := p
    rw [unaryRight] at h
    exact ⟨items1, j, rfl, h⟩

theorem binaryRight_ok (index : Nat) (r : Str) (bf : α → α → α) (lv : α)
    (lcl : Nat) (res : Except PError (List (Node α) × Int))
    (items' : List (Node α)) (i' : Int)
    (h : binaryRight index r bf lv lcl res = .ok (items', i')) :
    ∃ items1 j, res = .ok (items1, j) ∧
      binaryFinish items1 index r bf lv lcl (items1.get? (index + 1)) =
        .ok (items', i') := by
  cases res with
  | error e => rw [binaryRight] at h; simp at h
  | ok p =>
    obtain ⟨items1, j⟩ := p
    rw [binaryRight] at h
    exact ⟨items1, j, rfl, h⟩

theorem unaryFinish_ok (items1 : List (Node α)) (index : Nat) (r : Str)
    (uf : α → α) (o : Option (Node α)) (items' : List (Node α)) (i' : Int)
    (h : unaryFinish items1 index r uf o = .ok (items', i')) :
    ∃ rv rcl, o = some (.result rv rcl) ∧ i' = (index : Int) ∧
      items' = (items1.set index (.result (uf rv) (r.length + rcl))).eraseIdx
        (index + 1) := by
  match o with
  | none => rw [unaryFinish] at h; simp at h
  | some (.value _ _) => rw [unaryFinish] at h; simp at h
  | some (.opBinary _ _) => rw [unaryFinish] at h; simp at h
  | some (.opUnary _ _) => rw [unaryFinish] at h; simp at h
  | some (.group _ _) => rw [unaryFinish] at h; simp at h
  | some (.result rv rcl) =>
    rw [unaryFinish] at h
    simp only [Except.ok.injEq, Prod.mk.injEq] at h
    exact ⟨rv, rcl, rfl, h.2.symm, h.1.symm⟩

theorem binaryFinish_ok (items1 : List (Node α)) (index : Nat) (r : Str)
    (bf : α → α → α) (lv : α) (lcl : Nat) (o : Option (Node α))
    (items' : List (Node α)) (i' : Int)
    (h : binaryFinish items1 index r bf lv lcl o = .ok (items', i')) :
    ∃ rv rcl, o = some (.result rv rcl) ∧ i' = (index : Int) - 1 ∧
      items' = binaryDel (items1.set index
        (.result (bf lv rv) (lcl + r.length + rcl))) index := by
  match o with
  | none => rw [binaryFinish] at h; simp at h
  | some (.value _ _) => rw [binaryFinish] at h; simp at h
  | some (.opBinary _ _) => rw [binaryFinish] at h; simp at h
  | some (.opUnary _ _) => rw [binaryFinish] at h; simp at h
  | some (.group _ _) => rw [binaryFinish] at h; simp at h
  | some (.result rv rcl) =>
    rw [binaryFinish] at h
    simp only [Except.ok.injEq, Prod.mk.injEq] at h
    exact ⟨rv, rcl, rfl, h.2.symm, h.1.symm⟩

theorem groupWriteBack_ok (items : List (Node α)) (index : Nat)
    (res : Except PError (Node α)) (items' : List (Node α)) (i' : Int)
    (h : groupWriteBack items index res = .ok (items', i')) :
    ∃ r, res = .ok r ∧ items' = items.set index r ∧ i' = (index : Int) := by
  cases res with
  | error e => rw [groupWriteBack] at h; simp at h
  | ok r =>
    rw [groupWriteBack] at h
    simp only [Except.ok.injEq, Prod.mk.injEq] at h
    exact ⟨r, rfl, h.1.symm, h.2.symm⟩

theorem groupReduceGo_ok (gr : Option Grouping)
    (res : Except PError (List (Node α))) (out : Node α)
    (h : groupReduceGo gr res = .ok out) :
    ∃ final, res = .ok final ∧ groupFinish gr final = .ok out := by
  cases res with
  | error e => rw [groupReduceGo] at h; simp at h
  | ok final => rw [groupReduceGo] at h; exact ⟨final, rfl, h⟩

theorem groupStep_ok (fuel : Nat) (children : List (Node α))
    (childPW origPW : Nat) (func : Option (Str → α))
    (res : Except PError (List (Node α) × Int)) (final : List (Node α))
    (h : groupStep fuel children childPW origPW func res = .ok final) :
    ∃ children', res = .ok (children', 0) ∧
      groupLoop fuel children' 1 childPW origPW func = .ok final := by
  cases res with
  | error e =>
    rw [groupStep] at h
    simp at h
  | ok p =>
    obtain ⟨children', i'⟩ := p
    rw [groupStep] at h
    by_cases hi : i' = 0
    · subst hi
      rw [if_pos rfl] at h
      exact ⟨children', rfl, h⟩
    · rw [if_neg hi, groupFail.eq_def] at h
      cases children' with
      | nil => simp at h
      | cons c cs => simp at h

theorem groupWrap_ok (gr : Option Grouping) (r : Node α) (out : Node α)
    (h : groupWrap gr r = .ok out) :
    (gr = none ∧ out = r) ∨
      (∃ g v cl, gr = some g ∧ r = .result v cl ∧
        out = .result v (cl + g.len)) := by
  match gr, r with
  | none, r => rw [groupWrap] at h; simp at h; exact Or.inl ⟨rfl, h.symm⟩
  | some g, .result v cl =>
    rw [groupWrap] at h
    simp at h
    exact Or.inr ⟨g, v, cl, rfl, rfl, h.symm⟩
  | some g, .value _ _ => rw [groupWrap] at h; simp at h
  | some g, .opBinary _ _ => rw [groupWrap] at h; simp at h
  | some g, .opUnary _ _ => rw [groupWrap] at h; simp at h
  | some g, .group _ _ => rw [groupWrap] at h; simp at h

theorem groupFinish_ok (gr : Option Grouping) (final : List (Node α))
    (out : Node α) (h : groupFinish gr final = .ok out) :
    ∃ r rest, final = r :: rest ∧ groupWrap gr r = .ok out := by
  cases final with
  | nil => rw [groupFinish] at h; simp at h
  | cons r rest => rw [groupFinish] at h; exact ⟨r, rest, rfl, h⟩

/-! ## The consumed-length bookkeeping of a successful reduction

`consume` preserves the total token length of the items list (each produced
`Result` records exactly the token length of the nodes it replaced), so a
fully reduced group's `Result` carries the group's token length. -/

/-- A binary operator whose left neighbour is not a `Result` is never
consumed successfully: the `isinstance` check raises first.  (Used to rule
out a binary operator as the directly consumed right neighbour of another
operator.) -/
theorem consumeAt_binary_blocked (fuel : Nat) (items : List (Node α)) (q : Nat)
    (func : Option (Str → α)) (subPW : Nat) (rb : Str) (fb : α → α → α)
    (L : Node α) (items1 : List (Node α)) (j : Int)
    (hq : items.get? q = some (.opBinary rb fb)) (hq1 : 1 ≤ q)
    (hleft : items.get? (q - 1) = some L) (hL : isResult L = false)
    (h : consumeAt fuel items q func subPW = .ok (items1, j)) : False := by
  cases fuel with
  | zero => rw [consumeAt_zero] at h; simp at h
  | succ fuel =>
    rw [consumeAt_succ, hq, consumeNode] at h
    cases hbf : binaryFetch items q with
    | error e => rw [binaryConsume_err _ _ _ _ _ _ _ _ hbf] at h; simp at h
    | ok p =>
      obtain ⟨left, right⟩ := p
      rw [binaryConsume_ok _ _ _ _ _ _ _ left right hbf] at h
      obtain ⟨hf1, _⟩ := binaryFetch_ok items q left right hbf
      rw [pyGet_nat_sub_one items q hq1, hleft] at hf1
      have hLeq : L = left := by simpa using hf1
      subst hLeq
      cases L with
      | result v cl => simp [isResult] at hL
      | value f t => rw [binaryLeft] at h; simp at h
      | opBinary r2 f2 => rw [binaryLeft] at h; simp at h
      | opUnary r2 f2 => rw [binaryLeft] at h; simp at h
      | group g2 c2 => rw [binaryLeft] at h; simp at h

mutual

/-- Specification of a successful `consumeAt`: the returned index is the
call index (or one less, for a binary operator); positions left of the call
index are untouched; and the total token length is preserved (for a binary
operator, provided the call index is positive — at index `0` the wrapped
negative left access can double-count). -/
theorem consumeAt_ok_spec : ∀ (fuel : Nat) (items : List (Node α)) (index : Nat)
    (func : Option (Str → α)) (subPW : Nat) (items' : List (Node α)) (i' : Int),
    consumeAt fuel items index func subPW = .ok (items', i') →
    (i' = (index : Int) ∧ (∀ j, j < index → items'.get? j = items.get? j) ∧
      tokenSum items' = tokenSum items)
    ∨ (i' = (index : Int) - 1 ∧
        (∃ rb fb, items.get? index = some (.opBinary rb fb)) ∧
        (1 ≤ index → tokenSum items' = tokenSum items))
  | 0, items, index, func, subPW, items', i', h => by
    rw [consumeAt_zero] at h
    simp at h
  | fuel + 1, items, index, func, subPW, items', i', h => by
    rw [consumeAt_succ] at h
    cases hn : items.get? index with
    | none =>
      rw [hn, consumeNode] at h
      simp only [Except.ok.injEq, Prod.mk.injEq] at h
      obtain ⟨h1, h2⟩ := h
      subst h1
      exact Or.inl ⟨h2.symm, fun j _ => rfl, rfl⟩
    | some node =>
      cases node with
      | result v cl =>
        rw [hn, consumeNode] at h
        simp only [Except.ok.injEq, Prod.mk.injEq] at h
        obtain ⟨h1, h2⟩ := h
        subst h1
        exact Or.inl ⟨h2.symm, fun j _ => rfl, rfl⟩
      | value vf t =>
        rw [hn, consumeNode] at h
        simp only [Except.ok.injEq, Prod.mk.injEq] at h
        obtain ⟨h1, h2⟩ := h
        subst h1
        refine Or.inl ⟨h2.symm, fun j hj => get?_set_ne' _ _ _ _ (by omega), ?_⟩
        have hset := tokenSum_set items index
          (Node.result ((func.getD vf) t) t.length) (Node.value vf t) hn
        simp only [tokenLen] at hset
        omega
      | opUnary r uf =>
        rw [hn, consumeNode] at h
        cases hp : pyGet items ((index : Int) + 1) with
        | none =>
          rw [unaryConsume_none _ _ _ _ _ _ _ hp] at h
          simp at h
        | some x =>
          rw [unaryConsume_some _ _ _ _ _ _ _ x hp] at h
          obtain ⟨items1, j1, hc, hfin⟩ := unaryRight_ok _ _ _ _ _ _ h
          obtain ⟨rv, rcl, hget, hi, hitems⟩ := unaryFinish_ok _ _ _ _ _ _ _ hfin
          rcases consumeAt_ok_spec fuel items (index + 1) func subPW items1 j1 hc with
            ⟨_, hpre, hts⟩ | ⟨_, ⟨rb, fb, hbin⟩, _⟩
          · subst hitems
            refine Or.inl ⟨hi, fun j hj => ?_, ?_⟩
            · rw [get?_eraseIdx_of_lt _ _ _ (by omega),
                get?_set_ne' _ _ _ _ (by omega), hpre j (by omega)]
            · have hop : items1.get? index = some (Node.opUnary r uf) := by
                rw [hpre index (by omega), hn]
              have hset := tokenSum_set items1 index
                (Node.result (uf rv) (r.length + rcl)) (Node.opUnary r uf) hop
              have hget2 : (items1.set index
                  (Node.result (uf rv) (r.length + rcl))).get? (index + 1) =
                  some (Node.result rv rcl) := by
                rw [get?_set_ne' _ _ _ _ (by omega), hget]
              have herase := tokenSum_eraseIdx _ (index + 1) _ hget2
              simp only [tokenLen] at hset herase
              omega
          · exact (consumeAt_binary_blocked fuel items (index + 1) func subPW
              rb fb (Node.opUnary r uf) items1 j1 hbin (by omega)
              (by simpa using hn) rfl hc).elim
      | opBinary rb fb =>
        rw [hn, consumeNode] at h
        cases hbf : binaryFetch items index with
        | error e =>
          rw [binaryConsume_err _ _ _ _ _ _ _ _ hbf] at h
          simp at h
        | ok p =>
          obtain ⟨left, right⟩ := p
          rw [binaryConsume_ok _ _ _ _ _ _ _ left right hbf] at h
          cases left with
          | value f t => rw [binaryLeft] at h; simp at h
          | opBinary r2 f2 => rw [binaryLeft] at h; simp at h
          | opUnary r2 f2 => rw [binaryLeft] at h; simp at h
          | group g2 c2 => rw [binaryLeft] at h; simp at h
          | result lv lcl =>
            rw [binaryLeft] at h
            obtain ⟨items1, j1, hc, hfin⟩ := binaryRight_ok _ _ _ _ _ _ _ _ h
            obtain ⟨rv, rcl, hget, hi, hitems⟩ :=
              binaryFinish_ok _ _ _ _ _ _ _ _ _ hfin
            refine Or.inr ⟨hi, ⟨rb, fb, rfl⟩, fun hidx => ?_⟩
            rcases consumeAt_ok_spec fuel items (index + 1) func subPW items1 j1 hc with
              ⟨_, hpre, hts⟩ | ⟨_, ⟨rb2, fb2, hbin⟩, _⟩
            · have hf := (binaryFetch_ok items index (Node.result lv lcl) right hbf).1
              rw [pyGet_nat_sub_one items index hidx] at hf
              have hop : items1.get? index = some (Node.opBinary rb fb) := by
                rw [hpre index (by omega), hn]
              have hset := tokenSum_set items1 index
                (Node.result (fb lv rv) (lcl + rb.length + rcl))
                (Node.opBinary rb fb) hop
              have hg2 : (items1.set index
                  (Node.result (fb lv rv) (lcl + rb.length + rcl))).get? (index + 1) =
                  some (Node.result rv rcl) := by
                rw [get?_set_ne' _ _ _ _ (by omega), hget]
              have herase1 := tokenSum_eraseIdx _ (index + 1) _ hg2
              have hg3 : ((items1.set index
                  (Node.result (fb lv rv) (lcl + rb.length + rcl))).eraseIdx
                    (index + 1)).get? (index - 1) = some (Node.result lv lcl) := by
                rw [get?_eraseIdx_of_lt _ _ _ (by omega),
                  get?_set_ne' _ _ _ _ (by omega), hpre (index - 1) (by omega), hf]
              have herase2 := tokenSum_eraseIdx _ (index - 1) _ hg3
              rw [hitems]
              simp only [binaryDel]
              rw [if_neg (by omega : ¬ index = 0)]
              simp only [tokenLen] at hset herase1 herase2
              omega
            · exact (consumeAt_binary_blocked fuel items (index + 1) func subPW
                rb2 fb2 (Node.opBinary rb fb) items1 j1 hbin (by omega)
                (by simpa using hn) rfl hc).elim
      | group gr2 ch2 =>
        rw [hn, consumeNode] at h
        simp only [groupMember] at h
        obtain ⟨res, hred, hset, hi⟩ := groupWriteBack_ok _ _ _ _ _ h
        have hlen := groupReduce_ok_len fuel gr2 ch2 subPW func res hred
        subst hset
        refine Or.inl ⟨hi, fun j hj => get?_set_ne' _ _ _ _ (by omega), ?_⟩
        have hset2 := tokenSum_set items index res (Node.group gr2 ch2) hn
        simp only [tokenLen] at hset2 hlen
        omega
termination_by fuel _ _ _ _ _ _ _ => fuel

theorem groupLoop_ok_spec : ∀ (fuel : Nat) (children : List (Node α))
    (child_i childPW origPW : Nat) (func : Option (Str → α))
    (final : List (Node α)),
    groupLoop fuel children child_i childPW origPW func = .ok final →
    tokenSum final = tokenSum children ∧
      (children.length ≤ child_i ∧ final = children ∨ final.length ≤ 1)
  | 0, children, child_i, childPW, origPW, func, final, h => by
    rw [groupLoop_zero] at h
    simp at h
  | fuel + 1, children, child_i, childPW, origPW, func, final, h => by
    rw [groupLoop_succ] at h
    by_cases hlt : child_i < children.length
    · rw [if_pos hlt] at h
      obtain ⟨children', hc, hloop⟩ := groupStep_ok _ _ _ _ _ _ _ h
      have hts1 : tokenSum children' = tokenSum children := by
        rcases consumeAt_ok_spec fuel children child_i func childPW children' 0 hc with
          ⟨_, _, hts⟩ | ⟨hj, _, hts⟩
        · exact hts
        · exact hts (by omega)
      obtain ⟨hts2, hlen⟩ := groupLoop_ok_spec fuel children' 1 childPW origPW func final hloop
      refine ⟨by rw [hts2, hts1], Or.inr ?_⟩
      rcases hlen with ⟨hle, heq⟩ | hle
      · subst heq; omega
      · exact hle
    · rw [if_neg hlt] at h
      simp only [Except.ok.injEq] at h
      subst h
      exact ⟨rfl, Or.inl ⟨by omega, rfl⟩⟩
termination_by fuel _ _ _ _ _ _ _ => fuel

theorem groupReduce_ok_len : ∀ (fuel : Nat) (gr : Option Grouping)
    (children : List (Node α)) (origPW : Nat) (func : Option (Str → α))
    (res : Node α),
    groupReduce fuel gr children origPW func = .ok res →
    tokenLen res = tokenSum children + glen gr
  | 0, gr, children, origPW, func, res, h => by
    rw [groupReduce_zero] at h
    simp at h
  | fuel + 1, gr, children, origPW, func, res, h => by
    rw [groupReduce_succ] at h
    obtain ⟨final, hloop, hfin⟩ := groupReduceGo_ok _ _ _ h
    obtain ⟨hts, hlen⟩ := groupLoop_ok_spec fuel children 0 _ origPW func final hloop
    obtain ⟨r, rest, hfr, hwrap⟩ := groupFinish_ok _ _ _ hfin
    subst hfr
    have hrest : rest = [] := by
      rcases hlen with ⟨hle, heq⟩ | hle
      · subst heq
        simp at hle
      · cases rest with
        | nil => rfl
        | cons a as =>
          simp only [List.length_cons] at hle
          omega
    subst hrest
    simp only [tokenSum] at hts
    rcases groupWrap_ok _ _ _ hwrap with ⟨hgr, hout⟩ | ⟨g, v, cl, hgr, hr, hout⟩
    · subst hgr; subst hout
      simp only [glen]
      omega
    · subst hgr; subst hr; subst hout
      simp only [tokenLen] at hts ⊢
      simp only [glen]
      omega
termination_by fuel _ _ _ _ _ _ => fuel

end

/-! ## Reduction is insensitive to the value domain

`consumeAt` commutes with erasing all computed values and evaluation
functions to `Unit`: success, failure, every produced `consumed_length` and
every error index depend only on the tree's shape.  This is what makes a
parsed tree reusable with different evaluation functions. -/

theorem unaryFinish_erase (items1 : List (Node α)) (index : Nat) (r : Str)
    (uf : α → α) (o : Option (Node α)) :
    unaryFinish (eraseL items1) index r (fun _ => ()) (o.map eraseN) =
      eraseRes (unaryFinish items1 index r uf o) := by
  match o with
  | none => rw [Option.map_none', unaryFinish, unaryFinish, eraseRes]
  | some (.value _ _) =>
    rw [Option.map_some', eraseN, unaryFinish, unaryFinish, eraseRes]
  | some (.opBinary _ _) =>
    rw [Option.map_some', eraseN, unaryFinish, unaryFinish, eraseRes]
  | some (.opUnary _ _) =>
    rw [Option.map_some', eraseN, unaryFinish, unaryFinish, eraseRes]
  | some (.group _ _) =>
    rw [Option.map_some', eraseN, unaryFinish, unaryFinish, eraseRes]
  | some (.result rv rcl) =>
    rw [Option.map_some', eraseN, unaryFinish, unaryFinish, eraseRes,
      eraseL_eraseIdx, eraseL_set, eraseN]

theorem unaryRight_erase (index : Nat) (r : Str) (uf : α → α)
    (res : Except PError (List (Node α) × Int)) :
    unaryRight index r (fun _ => ()) (eraseRes res) =
      eraseRes (unaryRight index r uf res) := by
  cases res with
  | error e => rw [eraseRes, unaryRight, unaryRight, eraseRes]
  | ok p =>
    obtain ⟨items1, j⟩ := p
    rw [eraseRes, unaryRight, unaryRight, get?_eraseL]
    exact unaryFinish_erase items1 index r uf _

theorem binaryDel_erase (s1 : List (Node α)) (index : Nat) :
    binaryDel (eraseL s1) index = eraseL (binaryDel s1 index) := by
  by_cases h : index = 0
  · simp only [binaryDel, if_pos h, eraseL_eraseIdx, length_eraseL]
    have hlen : ((eraseL s1).eraseIdx (index + 1)).length =
        (s1.eraseIdx (index + 1)).length := by
      rw [← eraseL_eraseIdx, length_eraseL]
    rw [hlen]
  · simp only [binaryDel, if_neg h, eraseL_eraseIdx]

theorem binaryFinish_erase (items1 : List (Node α)) (index : Nat) (r : Str)
    (bf : α → α → α) (lv : α) (lcl : Nat) (o : Option (Node α)) :
    binaryFinish (eraseL items1) index r (fun _ _ => ()) () lcl (o.map eraseN) =
      eraseRes (binaryFinish items1 index r bf lv lcl o) := by
  match o with
  | none => rw [Option.map_none', binaryFinish, binaryFinish, eraseRes]
  | some (.value _ _) =>
    rw [Option.map_some', eraseN, binaryFinish, binaryFinish, eraseRes]
  | some (.opBinary _ _) =>
    rw [Option.map_some', eraseN, binaryFinish, binaryFinish, eraseRes]
  | some (.opUnary _ _) =>
    rw [Option.map_some', eraseN, binaryFinish, binaryFinish, eraseRes]
  | some (.group _ _) =>
    rw [Option.map_some', eraseN, binaryFinish, binaryFinish, eraseRes]
  | some (.result rv rcl) =>
    rw [Option.map_some', eraseN, binaryFinish, binaryFinish, eraseRes,
      ← binaryDel_erase, eraseL_set, eraseN]

theorem binaryRight_erase (index : Nat) (r : Str) (bf : α → α → α) (lv : α)
    (lcl : Nat) (res : Except PError (List (Node α) × Int)) :
    binaryRight index r (fun _ _ => ()) () lcl (eraseRes res) =
      eraseRes (binaryRight index r bf lv lcl res) := by
  cases res with
  | error e => rw [eraseRes, binaryRight, binaryRight, eraseRes]
  | ok p =>
    obtain ⟨items1, j⟩ := p
    rw [eraseRes, binaryRight, binaryRight, get?_eraseL]
    exact binaryFinish_erase items1 index r bf lv lcl _

theorem binaryFetch_erase_err (items : List (Node α)) (index : Nat)
    (e : PError) (h : binaryFetch items index = .error e) :
    binaryFetch (eraseL items) index = .error e := by
  rw [binaryFetch] at h ⊢
  rw [pyGet_eraseL, pyGet_eraseL]
  cases h1 : pyGet items ((index : Int) - 1) with
  | none => rw [h1] at h; rw [Option.map_none']; simpa using h
  | some a =>
    cases h2 : pyGet items ((index : Int) + 1) with
    | none =>
      rw [h1, h2] at h
      rw [Option.map_some', Option.map_none']
      simpa using h
    | some b => rw [h1, h2] at h; simp at h

theorem binaryFetch_erase_ok (items : List (Node α)) (index : Nat)
    (left right : Node α) (h : binaryFetch items index = .ok (left, right)) :
    binaryFetch (eraseL items) index = .ok (eraseN left, eraseN right) := by
  obtain ⟨h1, h2⟩ := binaryFetch_ok items index left right h
  rw [binaryFetch, pyGet_eraseL, pyGet_eraseL, h1, h2,
    Option.map_some', Option.map_some']

theorem groupWriteBack_erase (items : List (Node α)) (index : Nat)
    (res : Except PError (Node α)) :
    groupWriteBack (eraseL items) index (eraseNRes res) =
      eraseRes (groupWriteBack items index res) := by
  cases res with
  | error e => rw [eraseNRes, groupWriteBack, groupWriteBack, eraseRes]
  | ok r =>
    rw [eraseNRes, groupWriteBack, groupWriteBack, eraseRes, eraseL_set]

theorem groupWrap_erase (gr : Option Grouping) (r : Node α) :
    groupWrap gr (eraseN r) = eraseNRes (groupWrap gr r) := by
  match gr, r with
  | none, r => rw [groupWrap.eq_def, groupWrap.eq_def]; cases r <;> rw [eraseN] <;> rfl
  | some g, .result v cl =>
    rw [eraseN, groupWrap.eq_def, groupWrap.eq_def, eraseNRes, eraseN]
  | some g, .value _ _ => rw [eraseN, groupWrap.eq_def, groupWrap.eq_def, eraseNRes]
  | some g, .opBinary _ _ => rw [eraseN, groupWrap.eq_def, groupWrap.eq_def, eraseNRes]
  | some g, .opUnary _ _ => rw [eraseN, groupWrap.eq_def, groupWrap.eq_def, eraseNRes]
  | some g, .group _ _ => rw [eraseN, groupWrap.eq_def, groupWrap.eq_def, eraseNRes]

theorem groupFinish_erase (gr : Option Grouping) (final : List (Node α)) :
    groupFinish gr (eraseL final) = eraseNRes (groupFinish gr final) := by
  cases final with
  | nil => rw [eraseL, groupFinish, groupFinish, eraseNRes]
  | cons r rest =>
    rw [eraseL, groupFinish, groupFinish]
    exact groupWrap_erase gr r

theorem groupReduceGo_erase (gr : Option Grouping)
    (res : Except PError (List (Node α))) :
    groupReduceGo gr (eraseLRes res) = eraseNRes (groupReduceGo gr res) := by
  cases res with
  | error e => rw [eraseLRes, groupReduceGo, groupReduceGo, eraseNRes]
  | ok final =>
    rw [eraseLRes, groupReduceGo, groupReduceGo]
    exact groupFinish_erase gr final

theorem groupFail_erase (fuel : Nat) (children' : List (Node α))
    (childPW origPW : Nat) :
    groupFail fuel (eraseL children') childPW origPW =
      eraseLRes (groupFail fuel children' childPW origPW) := by
  cases children' with
  | nil => rw [eraseL, groupFail.eq_def, groupFail.eq_def, eraseLRes]
  | cons c cs =>
    rw [eraseL, groupFail.eq_def, groupFail.eq_def, eraseLRes]
    have hcl : cl0 fuel (eraseN c :: eraseL cs) childPW = cl0 fuel (c :: cs) childPW := by
      have h := cl0_eraseL fuel (c :: cs) childPW
      rw [eraseL] at h
      exact h
    cases c <;> rw [eraseN] <;> rw [eraseN] at hcl <;> rw [hcl]

mutual

theorem consumeAt_erase : ∀ (fuel : Nat) (items : List (Node α)) (index : Nat)
    (func : Option (Str → α)) (subPW : Nat),
    consumeAt fuel (eraseL items) index (eraseF func) subPW =
      eraseRes (consumeAt fuel items index func subPW)
  | 0, items, index, func, subPW => by
    rw [consumeAt_zero, consumeAt_zero, eraseRes]
  | fuel + 1, items, index, func, subPW => by
    rw [consumeAt_succ, consumeAt_succ, get?_eraseL]
    cases hn : items.get? index with
    | none => rw [Option.map_none', consumeNode, consumeNode, eraseRes]
    | some node =>
      rw [Option.map_some']
      cases node with
      | result v cl => rw [eraseN, consumeNode, consumeNode, eraseRes]
      | value vf t =>
        rw [eraseN, consumeNode, consumeNode, eraseRes, eraseL_set, eraseN]
      | opUnary r uf =>
        rw [eraseN, consumeNode, consumeNode]
        have hpg := pyGet_eraseL items ((index : Int) + 1)
        cases hp : pyGet items ((index : Int) + 1) with
        | none =>
          rw [hp, Option.map_none'] at hpg
          rw [unaryConsume_none _ _ _ _ _ _ _ hpg,
            unaryConsume_none _ _ _ _ _ _ _ hp, eraseRes]
        | some x =>
          rw [hp, Option.map_some'] at hpg
          rw [unaryConsume_some _ _ _ _ _ _ _ _ hpg,
            unaryConsume_some _ _ _ _ _ _ _ x hp,
            consumeAt_erase fuel items (index + 1) func subPW]
          exact unaryRight_erase index r uf _
      | opBinary rb fb =>
        rw [eraseN, consumeNode, consumeNode]
        cases hbf : binaryFetch items index with
        | error e =>
          rw [binaryConsume_err _ _ _ _ _ _ _ _ (binaryFetch_erase_err _ _ _ hbf),
            binaryConsume_err _ _ _ _ _ _ _ _ hbf, eraseRes]
        | ok p =>
          obtain ⟨left, right⟩ := p
          rw [binaryConsume_ok _ _ _ _ _ _ _ _ _ (binaryFetch_erase_ok _ _ _ _ hbf),
            binaryConsume_ok _ _ _ _ _ _ _ left right hbf]
          cases left with
          | value f t => rw [eraseN, binaryLeft, binaryLeft, eraseRes]
          | opBinary r2 f2 => rw [eraseN, binaryLeft, binaryLeft, eraseRes]
          | opUnary r2 f2 => rw [eraseN, binaryLeft, binaryLeft, eraseRes]
          | group g2 c2 => rw [eraseN, binaryLeft, binaryLeft, eraseRes]
          | result lv lcl =>
            rw [eraseN, binaryLeft, binaryLeft,
              consumeAt_erase fuel items (index + 1) func subPW]
            exact binaryRight_erase index rb fb lv lcl _
      | group gr2 ch2 =>
        rw [eraseN, consumeNode, consumeNode]
        simp only [groupMember]
        rw [groupReduce_erase fuel gr2 ch2 subPW func]
        exact groupWriteBack_erase items index _
termination_by fuel _ _ _ _ => (fuel, 0)

theorem groupStep_erase : ∀ (fuel : Nat) (children : List (Node α))
    (childPW origPW : Nat) (func : Option (Str → α))
    (res : Except PError (List (Node α) × Int)),
    groupStep fuel (eraseL children) childPW origPW (eraseF func) (eraseRes res) =
      eraseLRes (groupStep fuel children childPW origPW func res)
  | fuel, children, childPW, origPW, func, res => by
    cases res with
    | error e =>
      rw [eraseRes, groupStep, groupStep, cl0_eraseL, eraseLRes]
    | ok p =>
      obtain ⟨children', i'⟩ := p
      rw [eraseRes, groupStep, groupStep]
      by_cases hi : i' = 0
      · rw [if_pos hi, if_pos hi]
        exact groupLoop_erase fuel children' 1 childPW origPW func
      · rw [if_neg hi, if_neg hi]
        exact groupFail_erase fuel children' childPW origPW
termination_by fuel _ _ _ _ _ => (fuel, 1)

theorem groupLoop_erase : ∀ (fuel : Nat) (children : List (Node α))
    (child_i childPW origPW : Nat) (func : Option (Str → α)),
    groupLoop fuel (eraseL children) child_i childPW origPW (eraseF func) =
      eraseLRes (groupLoop fuel children child_i childPW origPW func)
  | 0, children, child_i, childPW, origPW, func => by
    rw [groupLoop_zero, groupLoop_zero, eraseLRes]
  | fuel + 1, children, child_i, childPW, origPW, func => by
    rw [groupLoop_succ, groupLoop_succ, length_eraseL]
    by_cases hlt : child_i < children.length
    · rw [if_pos hlt, if_pos hlt,
        consumeAt_erase fuel children child_i func childPW]
      exact groupStep_erase fuel children childPW origPW func _
    · rw [if_neg hlt, if_neg hlt, eraseLRes]
termination_by fuel _ _ _ _ _ => (fuel, 0)

theorem groupReduce_erase : ∀ (fuel : Nat) (gr : Option Grouping)
    (children : List (Node α)) (origPW : Nat) (func : Option (Str → α)),
    groupReduce fuel gr (eraseL children) origPW (eraseF func) =
      eraseNRes (groupReduce fuel gr children origPW func)
  | 0, gr, children, origPW, func => by
    rw [groupReduce_zero, groupReduce_zero, eraseNRes]
  | fuel + 1, gr, children, origPW, func => by
    rw [groupReduce_succ, groupReduce_succ, length_eraseL,
      origWalk_eraseL fuel children children.length,
      groupLoop_erase fuel children 0 _ origPW func]
    exact groupReduceGo_erase gr _
termination_by fuel _ _ _ _ => (fuel, 2)

end

/-! ## The tokenizer's dispatch and totality

One unfold lemma per branch of the `while` loop of `Parser.parse`, in the
order the Python code tries them, and the proof that with non-empty
delimiters and operator representations the loop always terminates with the
root group (no unclosed-grouping error exists). -/

theorem parseLoop_nil (ops : List (Oper α)) (gs : List Grouping) (f : Str → α)
    (fuel : Nat) (stack : List (Grouping × List (Node α))) (cur : List (Node α))
    (pending : Str) :
    parseLoop ops gs f fuel [] stack cur pending =
      some (Node.group none (unwind stack (pushValue f cur pending))) := by
  rw [parseLoop.eq_def]

theorem parseLoop_start (ops : List (Oper α)) (gs : List Grouping) (f : Str → α)
    (fuel : Nat) (c : Char) (rest' : Str)
    (stack : List (Grouping × List (Node α))) (cur : List (Node α))
    (pending : Str) (g : Grouping)
    (hg : findGroupStart gs (c :: rest') = some g) :
    parseLoop ops gs f (fuel + 1) (c :: rest') stack cur pending =
      parseLoop ops gs f fuel ((c :: rest').drop g.start.length)
        ((g, pushValue f cur pending) :: stack) [] [] := by
  rw [parseLoop.eq_def]
  simp only [hg]

theorem parseLoop_close (ops : List (Oper α)) (gs : List Grouping) (f : Str → α)
    (fuel : Nat) (c : Char) (rest' : Str) (g : Grouping)
    (done : List (Node α)) (stack' : List (Grouping × List (Node α)))
    (cur : List (Node α)) (pending : Str)
    (hg : findGroupStart gs (c :: rest') = none)
    (hend : isSubstringAt (c :: rest') g.end_ = true) :
    parseLoop ops gs f (fuel + 1) (c :: rest') ((g, done) :: stack') cur pending =
      parseLoop ops gs f fuel ((c :: rest').drop g.end_.length) stack'
        (done ++ [Node.group (some g) (pushValue f cur pending)]) [] := by
  rw [parseLoop.eq_def]
  simp only [hg, hend, if_true]

theorem parseLoop_op_cons (ops : List (Oper α)) (gs : List Grouping) (f : Str → α)
    (fuel : Nat) (c : Char) (rest' : Str) (g : Grouping)
    (done : List (Node α)) (stack' : List (Grouping × List (Node α)))
    (cur : List (Node α)) (pending : Str) (op : Oper α)
    (hg : findGroupStart gs (c :: rest') = none)
    (hend : isSubstringAt (c :: rest') g.end_ = false)
    (ho : findOper ops (c :: rest') = some op) :
    parseLoop ops gs f (fuel + 1) (c :: rest') ((g, done) :: stack') cur pending =
      parseLoop ops gs f fuel ((c :: rest').drop op.rep.length)
        ((g, done) :: stack') (pushValue f cur pending ++ [op.node]) [] := by
  rw [parseLoop.eq_def]
  simp only [hg, hend, ho, if_false, Bool.false_eq_true]

theorem parseLoop_op_root (ops : List (Oper α)) (gs : List Grouping) (f : Str → α)
    (fuel : Nat) (c : Char) (rest' : Str)
    (cur : List (Node α)) (pending : Str) (op : Oper α)
    (hg : findGroupStart gs (c :: rest') = none)
    (ho : findOper ops (c :: rest') = some op) :
    parseLoop ops gs f (fuel + 1) (c :: rest') [] cur pending =
      parseLoop ops gs f fuel ((c :: rest').drop op.rep.length)
        [] (pushValue f cur pending ++ [op.node]) [] := by
  rw [parseLoop.eq_def]
  simp only [hg, ho]

theorem parseLoop_char_cons (ops : List (Oper α)) (gs : List Grouping)
    (f : Str → α) (fuel : Nat) (c : Char) (rest' : Str) (g : Grouping)
    (done : List (Node α)) (stack' : List (Grouping × List (Node α)))
    (cur : List (Node α)) (pending : Str)
    (hg : findGroupStart gs (c :: rest') = none)
    (hend : isSubstringAt (c :: rest') g.end_ = false)
    (ho : findOper ops (c :: rest') = none) :
    parseLoop ops gs f (fuel + 1) (c :: rest') ((g, done) :: stack') cur pending =
      parseLoop ops gs f fuel rest' ((g, done) :: stack') cur (pending ++ [c]) := by
  rw [parseLoop.eq_def]
  simp only [hg, hend, ho, if_false, Bool.false_eq_true]

theorem parseLoop_char_root (ops : List (Oper α)) (gs : List Grouping)
    (f : Str → α) (fuel : Nat) (c : Char) (rest' : Str)
    (cur : List (Node α)) (pending : Str)
    (hg : findGroupStart gs (c :: rest') = none)
    (ho : findOper ops (c :: rest') = none) :
    parseLoop ops gs f (fuel + 1) (c :: rest') [] cur pending =
      parseLoop ops gs f fuel rest' [] cur (pending ++ [c]) := by
  rw [parseLoop.eq_def]
  simp only [hg, ho]

theorem findGroupStart_mem : ∀ (gs : List Grouping) (rest : Str) (g : Grouping),
    findGroupStart gs rest = some g → g ∈ gs ∧ isSubstringAt rest g.start = true
  | [], rest, g, h => by rw [findGroupStart] at h; exact absurd h (by simp)
  | g0 :: gs', rest, g, h => by
    rw [findGroupStart] at h
    by_cases hs : isSubstringAt rest g0.start = true
    · rw [if_pos hs] at h
      cases h
      exact ⟨List.mem_cons_self _ _, hs⟩
    · rw [if_neg hs] at h
      obtain ⟨hm, hs'⟩ := findGroupStart_mem gs' rest g h
      exact ⟨List.mem_cons_of_mem _ hm, hs'⟩

theorem findOper_mem : ∀ (ops : List (Oper α)) (rest : Str) (op : Oper α),
    findOper ops rest = some op → op ∈ ops ∧ isSubstringAt rest op.rep = true
  | [], rest, op, h => by rw [findOper] at h; exact absurd h (by simp)
  | o0 :: ops', rest, op, h => by
    rw [findOper] at h
    by_cases hs : isSubstringAt rest o0.rep = true
    · rw [if_pos hs] at h
      cases h
      exact ⟨List.mem_cons_self _ _, hs⟩
    · rw [if_neg hs] at h
      obtain ⟨hm, hs'⟩ := findOper_mem ops' rest op h
      exact ⟨List.mem_cons_of_mem _ hm, hs'⟩

theorem isSubstringAt_len (rest sub : Str) (h : isSubstringAt rest sub = true) :
    sub.length ≤ rest.length := by
  rw [isSubstringAt] at h
  exact ( List.isPrefixOf_iff_prefix.mp h).length_le

theorem drop_length_le (c : Char) (rest' : Str) (k : Nat) (hk : 1 ≤ k) :
    ((c :: rest').drop k).length ≤ rest'.length := by
  rw [List.length_drop]
  simp only [List.length_cons]
  omega

theorem parseLoop_total (ops : List (Oper α)) (gs : List Grouping) (f : Str → α)
    (hgs : ∀ g ∈ gs, g.start ≠ [] ∧ g.end_ ≠ [])
    (hops : ∀ op ∈ ops, op.rep ≠ []) :
    ∀ (fuel : Nat) (s : Str) (stack : List (Grouping × List (Node α)))
      (cur : List (Node α)) (pending : Str),
      s.length < fuel →
      (∀ p ∈ stack, p.1 ∈ gs) →
      ∃ ch, parseLoop ops gs f fuel s stack cur pending =
        some (Node.group none ch)
  | 0, s, stack, cur, pending, hlen, _ => absurd hlen (by omega)
  | fuel + 1, [], stack, cur, pending, _, _ =>
      ⟨_, parseLoop_nil ops gs f (fuel + 1) stack cur pending⟩
  | fuel + 1, c :: rest', stack, cur, pending, hlen, hstack => by
    have hrest : rest'.length < fuel := by
      simp only [List.length_cons] at hlen; omega
    cases hg : findGroupStart gs (c :: rest') with
    | some g =>
      rw [parseLoop_start ops gs f fuel c rest' stack cur pending g hg]
      obtain ⟨hmem, hsub⟩ := findGroupStart_mem gs (c :: rest') g hg
      have hne : g.start ≠ [] := (hgs g hmem).1
      have h1 : 1 ≤ g.start.length := by
        cases hs : g.start with
        | nil => exact absurd hs hne
        | cons a b => simp
      apply parseLoop_total ops gs f hgs hops fuel _ _ [] []
      · calc ((c :: rest').drop g.start.length).length ≤ rest'.length :=
              drop_length_le c rest' _ h1
          _ < fuel := hrest
      · intro p hp
        cases hp with
        | head => exact hmem
        | tail _ hp' => exact hstack p hp'
    | none =>
      cases stack with
      | cons gd stack' =>
        obtain ⟨g0, done⟩ := gd
        have hg0 : g0 ∈ gs := hstack (g0, done) (List.mem_cons_self _ _)
        by_cases hend : isSubstringAt (c :: rest') g0.end_ = true
        · rw [parseLoop_close ops gs f fuel c rest' g0 done stack' cur pending
            hg hend]
          have hne : g0.end_ ≠ [] := (hgs g0 hg0).2
          have h1 : 1 ≤ g0.end_.length := by
            cases hs : g0.end_ with
            | nil => exact absurd hs hne
            | cons a b => simp
          apply parseLoop_total ops gs f hgs hops fuel _ _ _ []
          · calc ((c :: rest').drop g0.end_.length).length ≤ rest'.length :=
                  drop_length_le c rest' _ h1
              _ < fuel := hrest
          · intro p hp
            exact hstack p (List.mem_cons_of_mem _ hp)
        · rw [Bool.not_eq_true] at hend
          cases ho : findOper ops (c :: rest') with
          | some op =>
            rw [parseLoop_op_cons ops gs f fuel c rest' g0 done stack' cur
              pending op hg hend ho]
            obtain ⟨hmem, hsub⟩ := findOper_mem ops (c :: rest') op ho
            have hne : op.rep ≠ [] := hops op hmem
            have h1 : 1 ≤ op.rep.length := by
              cases hs : op.rep with
              | nil => exact absurd hs hne
              | cons a b => simp
            apply parseLoop_total ops gs f hgs hops fuel _ _ _ []
            · calc ((c :: rest').drop op.rep.length).length ≤ rest'.length :=
                    drop_length_le c rest' _ h1
                _ < fuel := hrest
            · exact hstack
          | none =>
            rw [parseLoop_char_cons ops gs f fuel c rest' g0 done stack' cur
              pending hg hend ho]
            exact parseLoop_total ops gs f hgs hops fuel rest' _ cur
              (pending ++ [c]) hrest hstack
      | nil =>
        cases ho : findOper ops (c :: rest') with
        | some op =>
          rw [parseLoop_op_root ops gs f fuel c rest' cur pending op hg ho]
          obtain ⟨hmem, hsub⟩ := findOper_mem ops (c :: rest') op ho
          have hne : op.rep ≠ [] := hops op hmem
          have h1 : 1 ≤ op.rep.length := by
            cases hs : op.rep with
            | nil => exact absurd hs hne
            | cons a b => simp
          apply parseLoop_total ops gs f hgs hops fuel _ _ _ []
          · calc ((c :: rest').drop op.rep.length).length ≤ rest'.length :=
                  drop_length_le c rest' _ h1
              _ < fuel := hrest
          · intro p hp
            exact absurd hp (List.not_mem_nil p)
        | none =>
          rw [parseLoop_char_root ops gs f fuel c rest' cur pending hg ho]
          exact parseLoop_total ops gs f hgs hops fuel rest' _ cur
            (pending ++ [c]) hrest (fun p hp => absurd hp (List.not_mem_nil p))
termination_by fuel _ _ _ _ _ _ => fuel

theorem parse_total (ops : List (Oper α)) (gs : List Grouping) (f : Str → α)
    (s : Str)
    (hgs : ∀ g ∈ gs, g.start ≠ [] ∧ g.end_ ≠ [])
    (hops : ∀ op ∈ ops, op.rep ≠ []) :
    ∃ ch, parse ops gs f s = some (Node.group none ch) := by
  rw [parse]
  exact parseLoop_total ops gs f hgs hops (s.length + 1) s [] [] []
    (by omega) (fun p hp => absurd hp (List.not_mem_nil p))

/-- `evaluate` commutes with the value-domain erasure: whether an evaluation
succeeds, and the `consumed_length` or error it produces, are independent of
the evaluation functions. -/
theorem evaluate_erase (fuel : Nat) (g : Node α) (func : Option (Str → α)) :
    evaluate fuel (eraseN g) (eraseF func) = eraseNRes (evaluate fuel g func) := by
  cases g with
  | group gr ch =>
    rw [evaluate, evaluate, eraseN, deepcopyNode_id, deepcopyNode_id]
    exact groupReduce_erase fuel gr ch 0 func
  | value f t => rfl
  | opBinary r f => rfl
  | opUnary r f => rfl
  | result v cl => rfl

/-! ## What `Group.__deepcopy__` does to the heap

The copy only ever appends fresh cells — every original cell, in particular
the original parent that the copy's `parent` field keeps pointing at, is
still at its old address with its old contents. -/

theorem deepcopyH_zero (h : Heap α) (a : Nat) : deepcopyH 0 h a = none := by
  rw [deepcopyH.eq_def]

theorem deepcopyH_succ (fuel : Nat) (h : Heap α) (a : Nat) :
    deepcopyH (fuel + 1) h a = deepcopyHGo fuel h (h.get? a) := by
  rw [deepcopyH.eq_def]

theorem deepcopyHL_zero (h : Heap α) (l : List (HNode α)) :
    deepcopyHL 0 h l = none := by
  rw [deepcopyHL.eq_def]

theorem deepcopyHL_succ_nil (fuel : Nat) (h : Heap α) :
    deepcopyHL (fuel + 1) h [] = some (h, []) := by
  rw [deepcopyHL.eq_def]

theorem deepcopyHL_succ_gref (fuel : Nat) (h : Heap α) (a : Nat)
    (ns : List (HNode α)) :
    deepcopyHL (fuel + 1) h (.gref a :: ns) =
      deepcopyHRef fuel ns (deepcopyH fuel h a) := by
  rw [deepcopyHL.eq_def]

theorem deepcopyHL_succ_value (fuel : Nat) (h : Heap α) (f : Str → α) (t : Str)
    (ns : List (HNode α)) :
    deepcopyHL (fuel + 1) h (.value f t :: ns) =
      deepcopyHTail (.value f t) (deepcopyHL fuel h ns) := by
  rw [deepcopyHL.eq_def]

theorem deepcopyHL_succ_opBinary (fuel : Nat) (h : Heap α) (r : Str)
    (f : α → α → α) (ns : List (HNode α)) :
    deepcopyHL (fuel + 1) h (.opBinary r f :: ns) =
      deepcopyHTail (.opBinary r f) (deepcopyHL fuel h ns) := by
  rw [deepcopyHL.eq_def]

theorem deepcopyHL_succ_opUnary (fuel : Nat) (h : Heap α) (r : Str)
    (f : α → α) (ns : List (HNode α)) :
    deepcopyHL (fuel + 1) h (.opUnary r f :: ns) =
      deepcopyHTail (.opUnary r f) (deepcopyHL fuel h ns) := by
  rw [deepcopyHL.eq_def]

theorem deepcopyHL_succ_result (fuel : Nat) (h : Heap α) (v : α) (cl : Nat)
    (ns : List (HNode α)) :
    deepcopyHL (fuel + 1) h (.result v cl :: ns) =
      deepcopyHTail (.result v cl) (deepcopyHL fuel h ns) := by
  rw [deepcopyHL.eq_def]

mutual

theorem deepcopyH_grows : ∀ (fuel : Nat) (h : Heap α) (a : Nat) (h' : Heap α)
    (a' : Nat), deepcopyH fuel h a = some (h', a') →
    ∃ g ch' t, h.get? a = some g ∧ h' = h ++ t ∧ h.length ≤ a' ∧
      h'.get? a' = some ⟨g.parent, g.grouping, ch'⟩
  | 0, h, a, h', a', hc => by
    rw [deepcopyH_zero] at hc
    exact absurd hc (by simp)
  | fuel + 1, h, a, h', a', hc => by
    rw [deepcopyH_succ] at hc
    cases hg : h.get? a with
    | none =>
      rw [hg, deepcopyHGo] at hc
      exact absurd hc (by simp)
    | some g =>
      rw [hg, deepcopyHGo] at hc
      cases hl : deepcopyHL fuel h g.children with
      | none =>
        rw [hl, deepcopyHFin] at hc
        exact absurd hc (by simp)
      | some p =>
        obtain ⟨h1, ch'⟩ := p
        rw [hl, deepcopyHFin] at hc
        obtain ⟨t, ht⟩ := deepcopyHL_grows fuel h g.children h1 ch' hl
        simp only [Option.some.injEq, Prod.mk.injEq] at hc
        obtain ⟨hh', ha'⟩ := hc
        refine ⟨g, ch', t ++ [⟨g.parent, g.grouping, ch'⟩], rfl, ?_, ?_, ?_⟩
        · rw [← hh', ht, List.append_assoc]
        · rw [← ha', ht]
          simp
        · rw [← hh', ← ha']
          exact List.get?_concat_length h1 _
termination_by fuel _ _ _ _ _ => (fuel, 0)

theorem deepcopyHL_grows : ∀ (fuel : Nat) (h : Heap α) (l : List (HNode α))
    (h1 : Heap α) (l' : List (HNode α)),
    deepcopyHL fuel h l = some (h1, l') → ∃ t, h1 = h ++ t
  | 0, h, l, h1, l', hc => by
    rw [deepcopyHL_zero] at hc
    exact absurd hc (by simp)
  | fuel + 1, h, [], h1, l', hc => by
    rw [deepcopyHL_succ_nil] at hc
    simp only [Option.some.injEq, Prod.mk.injEq] at hc
    exact ⟨[], by rw [← hc.1, List.append_nil]⟩
  | fuel + 1, h, .gref a :: ns, h1, l', hc => by
    rw [deepcopyHL_succ_gref] at hc
    cases hd : deepcopyH fuel h a with
    | none =>
      rw [hd, deepcopyHRef] at hc
      exact absurd hc (by simp)
    | some p =>
      obtain ⟨hA, a'⟩ := p
      rw [hd, deepcopyHRef] at hc
      cases hrest : deepcopyHL fuel hA ns with
      | none =>
        rw [hrest, deepcopyHTail] at hc
        exact absurd hc (by simp)
      | some q =>
        obtain ⟨h2, ns'⟩ := q
        rw [hrest, deepcopyHTail] at hc
        simp only [Option.some.injEq, Prod.mk.injEq] at hc
        obtain ⟨g0, ch0, t0, hg0, htA, hle0, hget0⟩ :=
          deepcopyH_grows fuel h a hA a' hd
        obtain ⟨t1, ht1⟩ := deepcopyHL_grows fuel hA ns h2 ns' hrest
        exact ⟨t0 ++ t1, by rw [← hc.1, ht1, htA, List.append_assoc]⟩
  | fuel + 1, h, .value f t :: ns, h1, l', hc => by
    rw [deepcopyHL_succ_value] at hc
    cases hrest : deepcopyHL fuel h ns with
    | none =>
      rw [hrest, deepcopyHTail] at hc
      exact absurd hc (by simp)
    | some q =>
      obtain ⟨h2, ns'⟩ := q
      rw [hrest, deepcopyHTail] at hc
      simp only [Option.some.injEq, Prod.mk.injEq] at hc
      obtain ⟨t1, ht1⟩ := deepcopyHL_grows fuel h ns h2 ns' hrest
      exact ⟨t1, by rw [← hc.1, ht1]⟩
  | fuel + 1, h, .opBinary r f :: ns, h1, l', hc => by
    rw [deepcopyHL_succ_opBinary] at hc
    cases hrest : deepcopyHL fuel h ns with
    | none =>
      rw [hrest, deepcopyHTail] at hc
      exact absurd hc (by simp)
    | some q =>
      obtain ⟨h2, ns'⟩ := q
      rw [hrest, deepcopyHTail] at hc
      simp only [Option.some.injEq, Prod.mk.injEq] at hc
      obtain ⟨t1, ht1⟩ := deepcopyHL_grows fuel h ns h2 ns' hrest
      exact ⟨t1, by rw [← hc.1, ht1]⟩
  | fuel + 1, h, .opUnary r f :: ns, h1, l', hc => by
    rw [deepcopyHL_succ_opUnary] at hc
    cases hrest : deepcopyHL fuel h ns with
    | none =>
      rw [hrest, deepcopyHTail] at hc
      exact absurd hc (by simp)
    | some q =>
      obtain ⟨h2, ns'⟩ := q
      rw [hrest, deepcopyHTail] at hc
      simp only [Option.some.injEq, Prod.mk.injEq] at hc
      obtain ⟨t1, ht1⟩ := deepcopyHL_grows fuel h ns h2 ns' hrest
      exact ⟨t1, by rw [← hc.1, ht1]⟩
  | fuel + 1, h, .result v cl :: ns, h1, l', hc => by
    rw [deepcopyHL_succ_result] at hc
    cases hrest : deepcopyHL fuel h ns with
    | none =>
      rw [hrest, deepcopyHTail] at hc
      exact absurd hc (by simp)
    | some q =>
      obtain ⟨h2, ns'⟩ := q
      rw [hrest, deepcopyHTail] at hc
      simp only [Option.some.injEq, Prod.mk.injEq] at hc
      obtain ⟨t1, ht1⟩ := deepcopyHL_grows fuel h ns h2 ns' hrest
      exact ⟨t1, by rw [← hc.1, ht1]⟩
termination_by fuel _ _ _ _ _ => (fuel, 1)

end

theorem pyGet_zero_sub_one {β : Type} (l : List β) (h : 1 ≤ l.length) :
    pyGet l (((0 : Nat) : Int) - 1) = l.get? (l.length - 1) := by
  rw [pyGet]
  rw [if_neg (by omega)]
  rw [if_pos (show (0 : Int) ≤ (l.length : Int) + (((0 : Nat) : Int) - 1) by omega)]
  congr 1
  omega

/-! ## The mirrors agree with the engines

Pointwise equality of each structural mirror with the well-founded engine it
mirrors, by induction on the fuel; concrete evaluations are transported
through these equalities. -/

theorem origHeadAux_eq (fuel : Nat)
    (ihcl : ∀ (gr : Option Grouping) (ch sib : List (Node α)) (idx : Nat),
      (origAt fuel).1 gr ch sib idx = origCL fuel gr ch sib idx) :
    ∀ l : List (Node α), origHeadAux (origAt fuel).1 l = origHead fuel l
  | [] => by rw [origHeadAux, origHead]
  | .value f t :: rest => by rw [origHeadAux, origHead]
  | .opBinary r f :: rest => by rw [origHeadAux, origHead]
  | .opUnary r f :: rest => by rw [origHeadAux, origHead]
  | .result v cl :: rest => by rw [origHeadAux, origHead]
  | .group gr2 ch2 :: rest => by
    rw [origHeadAux, origHead]
    exact ihcl gr2 ch2 (.group gr2 ch2 :: rest) 0

theorem origLenOfAux_eq (fuel : Nat)
    (ihcl : ∀ (gr : Option Grouping) (ch sib : List (Node α)) (idx : Nat),
      (origAt fuel).1 gr ch sib idx = origCL fuel gr ch sib idx) :
    ∀ (sib : List (Node α)) (j : Nat) (o : Option (Node α)),
      origLenOfAux (origAt fuel).1 sib j o = origLenOf fuel sib j o
  | sib, j, some (.value f t) => by rw [origLenOfAux, origLenOf]
  | sib, j, some (.opBinary r f) => by rw [origLenOfAux, origLenOf]
  | sib, j, some (.opUnary r f) => by rw [origLenOfAux, origLenOf]
  | sib, j, some (.result v cl) => by rw [origLenOfAux, origLenOf]
  | sib, j, some (.group gr ch) => by
    rw [origLenOfAux, origLenOf]
    exact ihcl gr ch sib j
  | sib, j, none => by rw [origLenOfAux, origLenOf]

theorem origAt_eq : ∀ (fuel : Nat),
    (∀ (gr : Option Grouping) (ch sib : List (Node α)) (idx : Nat),
      (origAt fuel).1 gr ch sib idx = origCL fuel gr ch sib idx) ∧
    (∀ (sib : List (Node α)) (idx : Nat),
      (origAt fuel).2.1 sib idx = origWalk fuel sib idx) ∧
    (∀ (sib : List (Node α)) (j : Nat),
      (origAt fuel).2.2 sib j = origLenAt fuel sib j)
  | 0 => by
    refine ⟨fun gr ch sib idx => ?_, fun sib idx => ?_, fun sib j => ?_⟩
    · rw [origCL_zero]; rfl
    · rw [origWalk_zero]; rfl
    · rw [origLenAt_zero]; rfl
  | fuel + 1 => by
    obtain ⟨ihcl, ihwalk, ihlen⟩ := origAt_eq fuel
    refine ⟨fun gr ch sib idx => ?_, fun sib idx => ?_, fun sib j => ?_⟩
    · simp only [origAt]
      rw [origCL_succ, ← origHeadAux_eq fuel ihcl ch, ← ihwalk sib idx]
    · simp only [origAt]
      cases idx with
      | zero => rw [origWalk_succ_zero]
      | succ j => rw [origWalk_succ_succ, ← ihwalk sib j, ← ihlen sib j]
    · simp only [origAt]
      rw [origLenAt_succ, ← origLenOfAux_eq fuel ihcl sib j (sib.get? j)]

theorem cl0E_eq : ∀ (fuel : Nat) (children : List (Node α)) (cpw : Nat),
    cl0E fuel children cpw = cl0 fuel children cpw
  | fuel, [], cpw => by rw [cl0E, cl0]
  | fuel, .value f t :: rest, cpw => by rw [cl0E, cl0]
  | fuel, .opBinary r f :: rest, cpw => by rw [cl0E, cl0]
  | fuel, .opUnary r f :: rest, cpw => by rw [cl0E, cl0]
  | fuel, .result v cl :: rest, cpw => by rw [cl0E, cl0]
  | 0, .group gr ch :: rest, cpw => by rw [cl0E, cl0]
  | fuel + 1, .group gr ch :: rest, cpw => by
    rw [cl0E, cl0]
    rw [(origAt_eq fuel).2.1 ch ch.length]
    rw [cl0E_eq fuel ch (origWalk fuel ch ch.length + 1)]
termination_by fuel _ _ => fuel

theorem engineAt_eq : ∀ (fuel : Nat),
    (∀ (items : List (Node α)) (index : Nat) (func : Option (Str → α))
        (subPW : Nat),
      (engineAt fuel).1 items index func subPW =
        consumeAt fuel items index func subPW) ∧
    (∀ (children : List (Node α)) (child_i childPW origPW : Nat)
        (func : Option (Str → α)),
      (engineAt fuel).2.1 children child_i childPW origPW func =
        groupLoop fuel children child_i childPW origPW func) ∧
    (∀ (gr : Option Grouping) (children : List (Node α)) (origPW : Nat)
        (func : Option (Str → α)),
      (engineAt fuel).2.2 gr children origPW func =
        groupReduce fuel gr children origPW func)
  | 0 => by
    refine ⟨fun items index func subPW => ?_, fun c i cpw opw f => ?_,
      fun gr c opw f => ?_⟩
    · rw [consumeAt_zero]; rfl
    · rw [groupLoop_zero]; rfl
    · rw [groupReduce_zero]; rfl
  | fuel + 1 => by
    obtain ⟨ihca, ihgl, ihgr⟩ := engineAt_eq fuel
    refine ⟨fun items index func subPW => ?_, fun c i cpw opw f => ?_,
      fun gr c opw f => ?_⟩
    · simp only [engineAt]
      rw [consumeAt_succ]
      cases hn : items.get? index with
      | none => rw [consumeNode]
      | some node =>
        cases node with
        | result v cl => rw [consumeNode]
        | value vf t => rw [consumeNode]
        | opUnary r uf =>
          rw [consumeNode]
          cases hp : pyGet items ((index : Int) + 1) with
          | none => rw [unaryConsume_none _ _ _ _ _ _ _ hp]
          | some x =>
            rw [unaryConsume_some _ _ _ _ _ _ _ x hp,
              ← ihca items (index + 1) func subPW]
        | opBinary r bf =>
          rw [consumeNode]
          cases hbf : binaryFetch items index with
          | error e2 => rw [binaryConsume_err _ _ _ _ _ _ _ _ hbf]
          | ok p =>
            obtain ⟨left, right⟩ := p
            rw [binaryConsume_ok _ _ _ _ _ _ _ left right hbf]
            cases left with
            | result lv lcl =>
              rw [binaryLeft, ← ihca items (index + 1) func subPW]
            | value f2 t2 => rw [binaryLeft]
            | opBinary r2 f2 => rw [binaryLeft]
            | opUnary r2 f2 => rw [binaryLeft]
            | group g2 c2 => rw [binaryLeft]
        | group gr2 ch2 =>
          rw [consumeNode]
          simp only [groupMember]
          rw [← ihgr gr2 ch2 subPW func]
    · simp only [engineAt]
      rw [groupLoop_succ]
      by_cases hlt : i < c.length
      · rw [if_pos hlt, if_pos hlt, ← ihca c i f cpw]
        cases hres : (engineAt fuel).1 c i f cpw with
        | error e2 =>
          rw [groupStep, ← cl0E_eq fuel c cpw]
        | ok p =>
          obtain ⟨c', i'⟩ := p
          rw [groupStep]
          dsimp only
          by_cases hi : i' = 0
          · rw [if_pos hi, if_pos hi, ← ihgl c' 1 cpw opw f]
          · rw [if_neg hi, if_neg hi, groupFail.eq_def]
            cases c' with
            | nil => rfl
            | cons a as => rw [← cl0E_eq fuel (a :: as) cpw]
      · rw [if_neg hlt, if_neg hlt]
    · simp only [engineAt]
      rw [groupReduce_succ, ← (origAt_eq fuel).2.1 c c.length,
        ← ihgl c 0 ((origAt fuel).2.1 c c.length + 1) opw f]

theorem evaluate_eqE (fuel : Nat) (g : Node α) (func : Option (Str → α)) :
    evaluate fuel g func = evaluateE fuel g func := by
  cases g with
  | group gr ch =>
    rw [evaluate, deepcopyNode_id]
    exact (((engineAt_eq fuel).2.2 gr ch 0 func).symm :
      groupReduce fuel gr ch 0 func = _)
  | value f t => rfl
  | opBinary r f => rfl
  | opUnary r f => rfl
  | result v cl => rfl

theorem runBool_eqE (s song : Str) : runBool s song = runBoolE s song := by
  cases hp : parseBool s with
  | none => rw [runBool, runBoolE, hp]
  | some root =>
    rw [runBool, runBoolE, hp]
    simp only [evaluate_eqE]

theorem runBoolErr_eqE (s : Str) : runBoolErr s = runBoolErrE s := by
  cases hp : parseBool s with
  | none => rw [runBoolErr, runBoolErrE, hp]
  | some root =>
    rw [runBoolErr, runBoolErrE, hp]
    simp only [evaluate_eqE]

theorem deepAt_eq : ∀ (fuel : Nat),
    (∀ (h : Heap α) (a : Nat), (deepAt fuel).1 h a = deepcopyH fuel h a) ∧
    (∀ (h : Heap α) (l : List (HNode α)),
      (deepAt fuel).2 h l = deepcopyHL fuel h l)
  | 0 => by
    refine ⟨fun h a => ?_, fun h l => ?_⟩
    · rw [deepcopyH_zero]; rfl
    · rw [deepcopyHL_zero]; rfl
  | fuel + 1 => by
    obtain ⟨ihH, ihL⟩ := deepAt_eq fuel
    refine ⟨fun h a => ?_, fun h l => ?_⟩
    · simp only [deepAt]
      rw [deepcopyH_succ]
      cases hg : h.get? a with
      | none => rw [deepcopyHGo]
      | some g => rw [deepcopyHGo, ← ihL h g.children]
    · cases l with
      | nil => simp only [deepAt]; rw [deepcopyHL_succ_nil]
      | cons n ns =>
        cases n with
        | gref a =>
          simp only [deepAt]
          rw [deepcopyHL_succ_gref, ← ihH h a]
          cases hd : (deepAt fuel).1 h a with
          | none => rw [deepcopyHRef]
          | some p =>
            obtain ⟨h1, a'⟩ := p
            rw [deepcopyHRef, ← ihL h1 ns]
        | value f t => simp only [deepAt]; rw [deepcopyHL_succ_value, ← ihL h ns]
        | opBinary r f =>
          simp only [deepAt]; rw [deepcopyHL_succ_opBinary, ← ihL h ns]
        | opUnary r f =>
          simp only [deepAt]; rw [deepcopyHL_succ_opUnary, ← ihL h ns]
        | result v cl =>
          simp only [deepAt]; rw [deepcopyHL_succ_result, ← ihL h ns]

/-! ## The claims -/

/-- **C1** (amended).  For every evaluation of a group that succeeds, the
final `Result`'s `consumed_length` is the group's token length: the sum of
the children's token lengths plus the combined length of the grouping
delimiters (`0` at the root) — where a `Value` contributes its
whitespace-STRIPPED text, so the total is not in general the character count
of the source substring (see the counterexample
`consumed_length_whitespace_cex`). -/
theorem evaluate_consumed_length (fuel : Nat) (gr : Option Grouping)
    (ch : List (Node α)) (func : Option (Str → α)) (v : α) (cl : Nat)
    (h : evaluate fuel (Node.group gr ch) func = .ok (.result v cl)) :
    cl = tokenSum ch + glen gr := by
  rw [evaluate, deepcopyNode_id] at h
  have h2 : groupReduce fuel gr ch 0 func = .ok (.result v cl) := h
  have h3 := groupReduce_ok_len fuel gr ch 0 func (.result v cl) h2
  rw [tokenLen] at h3
  exact h3

/-- Witness for **C1**: a two-character value evaluates with
`consumed_length` `2`, matching its token sum. -/
theorem evaluate_consumed_length_witness :
    (2 : Nat) = tokenSum [Node.value (fun _ => (false : Bool)) "ab".toList] +
      glen none :=
  evaluate_consumed_length 10 none [Node.value (fun _ => false) "ab".toList]
    none false 2 (by rw [evaluate_eqE]; rfl)

/-- Counterexample for **C1** as stated: the 2-character source `"a "`
parses and evaluates successfully, but the final `consumed_length` is `1` —
the trailing whitespace consumed by the tokenizer is stripped by
`_pushValue` before the `Value` is stored, so it is not counted. -/
theorem consumed_length_whitespace_cex :
    Option.map (fun root => resultOf (evaluate 100 root none))
      (parseId "a ".toList) = some (some ("a".toList, 1)) ∧
    ("a ".toList).length = 2 := by
  constructor
  · simp only [evaluate_eqE]
    rfl
  · rfl

/-- **C2.**  With `&&`/`||`/`!` bound to the boolean operations and `(`/`)`
grouping, the docstring's filter
`"marley && (stephen && !(ziggy || damian) || bob)"` evaluates — with the
function "does the (lower-cased, stripped) token occur in the target
string" — to `True` against `"Bob Marley - Jammin"` and to `False` against
`"Duane Stephenson - Exhale"` (both with consumed length 40, the
whitespace-stripped token total). -/
theorem filter_example_eval :
    runBool filterInput "Bob Marley - Jammin".toList = some (true, 40) ∧
    runBool filterInput "Duane Stephenson - Exhale".toList = some (false, 40) := by
  constructor
  · rw [runBool_eqE]; rfl
  · rw [runBool_eqE]; rfl

/-- **C3.**  Evaluation never mutates the evaluated tree (`deepcopy` of a
parsed tree is the tree itself — the reduction operates on the structural
clone, and in this pure model on its own copy of the children), and whether
evaluation succeeds, together with the resulting `consumed_length`, is
independent of the evaluation function: if `g.evaluate(f1)` yields a
`Result` then for any other `f2`, `g.evaluate(f2)` also yields a `Result`
with the SAME `consumed_length` (each carrying the value its own function
computes). -/
theorem evaluate_reusable (fuel : Nat) (g : Node α) (f1 f2 : Str → α)
    (v1 : α) (cl : Nat) (_hne : f1 ≠ f2)
    (h1 : evaluate fuel g (some f1) = .ok (.result v1 cl)) :
    deepcopyNode g = g ∧
      ∃ v2, evaluate fuel g (some f2) = .ok (.result v2 cl) := by
  refine ⟨deepcopyNode_id g, ?_⟩
  have e1 := evaluate_erase fuel g (some f1)
  have e2 := evaluate_erase fuel g (some f2)
  have heq : eraseF (some f1) = eraseF (some f2) := rfl
  rw [heq] at e1
  have key : eraseNRes (evaluate fuel g (some f2)) =
      eraseNRes (evaluate fuel g (some f1)) := e2.symm.trans e1
  rw [h1, eraseNRes, eraseN] at key
  cases hev : evaluate fuel g (some f2) with
  | error e =>
    rw [hev, eraseNRes] at key
    exact absurd key (by simp)
  | ok n =>
    rw [hev, eraseNRes] at key
    cases n with
    | result v2 cl2 =>
      rw [eraseN] at key
      have hcl : cl2 = cl := by simpa using key
      exact ⟨v2, by rw [hcl]⟩
    | value f t => rw [eraseN] at key; exact absurd key (by simp)
    | opBinary r f => rw [eraseN] at key; exact absurd key (by simp)
    | opUnary r f => rw [eraseN] at key; exact absurd key (by simp)
    | group gr ch => rw [eraseN] at key; exact absurd key (by simp)

/-- Witness for **C3**: the group over value `"a"` evaluates under
`fun _ => true` to `Result true 1`; by the theorem, under the different
function `fun _ => false` it again succeeds with consumed length `1`, and
its deep copy is itself. -/
theorem evaluate_reusable_witness :
    deepcopyNode (Node.group none
        [Node.value (fun _ => (false : Bool)) "a".toList]) =
      Node.group none [Node.value (fun _ => (false : Bool)) "a".toList] ∧
    ∃ v2, evaluate 10
        (Node.group none [Node.value (fun _ => (false : Bool)) "a".toList])
        (some (fun _ => false)) = .ok (.result v2 1) :=
  evaluate_reusable 10 _ (fun _ => true) (fun _ => false) true 1
    (fun hcontra => Bool.noConfusion (congrFun hcontra []))
    (by rw [evaluate_eqE]; rfl)

/-- **C4** (code bug).  Missing-operand errors do surface as
`InvalidOperandError`, and at top level the attached index follows the
one-past convention (`"!"` reports `1` for the operator at offset `0`,
`"a&&"` reports `2` for the operator at offset `1`); but for an operator
inside a nested group the reported index is NOT the operator's source
offset under any convention: `"(a&&)"` reports `4` — the offset of the
closing parenthesis — for the operator at offsets `2`–`3`, because the
clone's `consumed_length` walks the ORIGINAL parent's children (the
`__deepcopy__` parent aliasing) and never finds the clone. -/
theorem operand_error_offset_bug :
    runBoolErr "!".toList =
      some (.invalidOperand msgOperatorInvalid (some 1)) ∧
    runBoolErr "a&&".toList =
      some (.invalidOperand msgOperatorInvalid (some 2)) ∧
    runBoolErr "(a&&)".toList =
      some (.invalidOperand msgOperatorInvalid (some 4)) ∧
    "(a&&)".toList.get? 2 = some '&' ∧
    "(a&&)".toList.get? 3 = some '&' ∧
    "(a&&)".toList.get? 4 = some ')' :=
  ⟨by rw [runBoolErr_eqE]; rfl, by rw [runBoolErr_eqE]; rfl,
   by rw [runBoolErr_eqE]; rfl, rfl, rfl, rfl⟩

/-- **C5.**  When a binary operator is consumed and its left neighbour
exists but is not a `Result` (for instance the operator directly follows
another operator), `consume` raises `InvalidOperandError` ("Left operand is
not a Result object") — for every operator function and override function,
so no operator function is applied. -/
theorem binary_unreduced_left_error (fuel : Nat) (items : List (Node α))
    (index : Nat) (func : Option (Str → α)) (subPW : Nat) (r : Str)
    (bf : α → α → α) (left right : Node α)
    (hn : items.get? index = some (.opBinary r bf))
    (hf : binaryFetch items index = .ok (left, right))
    (hl : isResult left = false) :
    consumeAt (fuel + 1) items index func subPW =
      .error (.invalidOperand msgLeftNotResult none) := by
  rw [consumeAt_succ, hn, consumeNode,
    binaryConsume_ok _ _ _ _ _ _ _ left right hf]
  cases left with
  | result v cl => rw [isResult] at hl; exact absurd hl (by simp)
  | value f t => rw [binaryLeft]
  | opBinary r2 f2 => rw [binaryLeft]
  | opUnary r2 f2 => rw [binaryLeft]
  | group g2 c2 => rw [binaryLeft]

/-- Witness for **C5**: a binary operator at index 0 whose (wrapped-around)
left neighbour is a unary operator node fails with the left-operand
error. -/
theorem binary_unreduced_left_error_witness :
    consumeAt 5 [Node.opBinary "&&".toList (fun a b => a && b),
      Node.value (fun _ => (false : Bool)) "a".toList,
      Node.opUnary "!".toList (fun a => !a)] 0 none 0 =
      .error (.invalidOperand msgLeftNotResult none) :=
  binary_unreduced_left_error 4 _ 0 none 0 "&&".toList (fun a b => a && b)
    (Node.opUnary "!".toList (fun a => !a))
    (Node.value (fun _ => false) "a".toList) rfl rfl rfl

/-- **C6** (code bug).  Adjacent operands do raise `MissingOperatorError`,
and at top level the attached index is one past the end of the first
operand (`"a(b)"` reports `2`, the first operand `a` occupying offset `0`);
but inside a nested group the reported index again follows the
parent-aliasing bug: `"(a(b))"` reports `4` although the first operand `a`
sits at offset `1` and the position immediately after it is `2`. -/
theorem missing_operator_offset_bug :
    runBoolErr "a(b)".toList =
      some (.missingOperator msgOperatorMissing (some 2)) ∧
    runBoolErr "(a(b))".toList =
      some (.missingOperator msgOperatorMissing (some 4)) ∧
    "(a(b))".toList.get? 1 = some 'a' ∧
    "(a(b))".toList.get? 2 = some '(' :=
  ⟨by rw [runBoolErr_eqE]; rfl, by rw [runBoolErr_eqE]; rfl, rfl, rfl⟩

/-- **C7.**  The tokenizer's dispatch, exactly in the source's order: at end
of input the pending value is flushed and the root group returned; otherwise
a matching group-start descends (tried first), then the current group's end
delimiter ascends, then the first configured operator whose representation
matches is appended, and if nothing matches the character is appended to the
pending value and the index advances by one; `findGroupStart` and `findOper`
return the FIRST configured match. -/
theorem tokenizer_dispatch :
    (∀ (β : Type) (ops : List (Oper β)) (gs : List Grouping) (f : Str → β)
        (fuel : Nat) (stack : List (Grouping × List (Node β)))
        (cur : List (Node β)) (pending : Str),
      parseLoop ops gs f fuel [] stack cur pending =
        some (Node.group none (unwind stack (pushValue f cur pending)))) ∧
    (∀ (β : Type) (ops : List (Oper β)) (gs : List Grouping) (f : Str → β)
        (fuel : Nat) (c : Char) (rest' : Str)
        (stack : List (Grouping × List (Node β))) (cur : List (Node β))
        (pending : Str) (g : Grouping),
      findGroupStart gs (c :: rest') = some g →
      parseLoop ops gs f (fuel + 1) (c :: rest') stack cur pending =
        parseLoop ops gs f fuel ((c :: rest').drop g.start.length)
          ((g, pushValue f cur pending) :: stack) [] []) ∧
    (∀ (β : Type) (ops : List (Oper β)) (gs : List Grouping) (f : Str → β)
        (fuel : Nat) (c : Char) (rest' : Str) (g : Grouping)
        (done : List (Node β)) (stack' : List (Grouping × List (Node β)))
        (cur : List (Node β)) (pending : Str),
      findGroupStart gs (c :: rest') = none →
      isSubstringAt (c :: rest') g.end_ = true →
      parseLoop ops gs f (fuel + 1) (c :: rest')
          ((g, done) :: stack') cur pending =
        parseLoop ops gs f fuel ((c :: rest').drop g.end_.length) stack'
          (done ++ [Node.group (some g) (pushValue f cur pending)]) []) ∧
    (∀ (β : Type) (ops : List (Oper β)) (gs : List Grouping) (f : Str → β)
        (fuel : Nat) (c : Char) (rest' : Str)
        (stack : List (Grouping × List (Node β))) (cur : List (Node β))
        (pending : Str) (op : Oper β),
      findGroupStart gs (c :: rest') = none →
      findOper ops (c :: rest') = some op →
      (stack = [] ∨ ∃ g done stack', stack = (g, done) :: stack' ∧
        isSubstringAt (c :: rest') g.end_ = false) →
      parseLoop ops gs f (fuel + 1) (c :: rest') stack cur pending =
        parseLoop ops gs f fuel ((c :: rest').drop op.rep.length) stack
          (pushValue f cur pending ++ [op.node]) []) ∧
    (∀ (β : Type) (ops : List (Oper β)) (gs : List Grouping) (f : Str → β)
        (fuel : Nat) (c : Char) (rest' : Str)
        (stack : List (Grouping × List (Node β))) (cur : List (Node β))
        (pending : Str),
      findGroupStart gs (c :: rest') = none →
      findOper ops (c :: rest') = none →
      (stack = [] ∨ ∃ g done stack', stack = (g, done) :: stack' ∧
        isSubstringAt (c :: rest') g.end_ = false) →
      parseLoop ops gs f (fuel + 1) (c :: rest') stack cur pending =
        parseLoop ops gs f fuel rest' stack cur (pending ++ [c])) ∧
    (∀ (rest : Str) (g : Grouping) (gs' : List Grouping),
      isSubstringAt rest g.start = true →
      findGroupStart (g :: gs') rest = some g) ∧
    (∀ (β : Type) (rest : Str) (op : Oper β) (ops' : List (Oper β)),
      isSubstringAt rest op.rep = true →
      findOper (op :: ops') rest = some op) := by
  refine ⟨?_, ?_, ?_, ?_, ?_, ?_, ?_⟩
  · exact fun β ops gs f fuel stack cur pending =>
      parseLoop_nil ops gs f fuel stack cur pending
  · exact fun β ops gs f fuel c rest' stack cur pending g hg =>
      parseLoop_start ops gs f fuel c rest' stack cur pending g hg
  · exact fun β ops gs f fuel c rest' g done stack' cur pending hg hend =>
      parseLoop_close ops gs f fuel c rest' g done stack' cur pending hg hend
  · intro β ops gs f fuel c rest' stack cur pending op hg ho hst
    rcases hst with rfl | ⟨g, done, stack', rfl, hend⟩
    · exact parseLoop_op_root ops gs f fuel c rest' cur pending op hg ho
    · exact parseLoop_op_cons ops gs f fuel c rest' g done stack' cur pending
        op hg hend ho
  · intro β ops gs f fuel c rest' stack cur pending hg ho hst
    rcases hst with rfl | ⟨g, done, stack', rfl, hend⟩
    · exact parseLoop_char_root ops gs f fuel c rest' cur pending hg ho
    · exact parseLoop_char_cons ops gs f fuel c rest' g done stack' cur
        pending hg hend ho
  · intro rest g gs' h
    rw [findGroupStart, if_pos h]
  · intro β rest op ops' h
    rw [findOper, if_pos h]

/-- Witness for **C7**: on input `"(a"` with the boolean configuration, the
first step is the group-start descent. -/
theorem tokenizer_dispatch_witness :
    parseLoop boolOps [paren] (fun _ => (false : Bool)) 3 ('(' :: "a".toList)
        [] [] [] =
      parseLoop boolOps [paren] (fun _ => false) 2
        (('(' :: "a".toList).drop paren.start.length)
        ((paren, pushValue (fun _ => false) [] []) :: []) [] [] :=
  tokenizer_dispatch.2.1 Bool boolOps [paren] (fun _ => false) 2 '('
    "a".toList [] [] [] paren rfl

/-- **C8.**  With non-empty delimiters and operator representations `parse`
always returns the root group — in particular an input that ends while a
nested group is still open raises nothing; the dangling group is already a
child of its ancestor (it was linked when opened), as the concrete unclosed
input `"(a"` shows. -/
theorem unclosed_group_returned :
    (∀ (β : Type) (ops : List (Oper β)) (gs : List Grouping) (f : Str → β)
        (s : Str),
      (∀ g ∈ gs, g.start ≠ [] ∧ g.end_ ≠ []) →
      (∀ op ∈ ops, op.rep ≠ []) →
      ∃ ch, parse ops gs f s = some (Node.group none ch)) ∧
    parseBool "(a".toList =
      some (Node.group none
        [Node.group (some paren) [Node.value (fun _ => false) "a".toList]]) :=
  ⟨fun _ ops gs f s hgs hops => parse_total ops gs f s hgs hops, rfl⟩

/-- Witness for **C8**: the boolean configuration satisfies the
non-emptiness conditions, so parsing the unclosed `"(a"` returns a root
group. -/
theorem unclosed_group_returned_witness :
    ∃ ch, parse boolOps [paren] (fun _ => (false : Bool)) "(a".toList =
      some (Node.group none ch) :=
  unclosed_group_returned.1 Bool boolOps [paren] (fun _ => false) "(a".toList
    (by decide)
    (by
      intro op hop
      rcases List.mem_cons.mp hop with rfl | hop1
      · decide
      rcases List.mem_cons.mp hop1 with rfl | hop2
      · decide
      rcases List.mem_cons.mp hop2 with rfl | hop3
      · decide
      · exact absurd hop3 (List.not_mem_nil op))

/-- **C9.**  `OperatorBinary.consume` at index `0` on at least two children
does not fail the operand lookup: Python's negative indexing makes
`items[-1]`, the LAST element, the left operand; and the
"Left or right operand is missing" branch of the fetch is reachable only
when `index + 1` is past the end of the list. -/
theorem binary_wraparound :
    (∀ (β : Type) (items : List (Node β)), 2 ≤ items.length →
      ∃ left right, binaryFetch items 0 = .ok (left, right) ∧
        items.get? (items.length - 1) = some left ∧
        items.get? 1 = some right) ∧
    (∀ (β : Type) (items : List (Node β)) (index : Nat) (e : PError),
      binaryFetch items index = .error e → items.length ≤ index + 1) := by
  constructor
  · intro β items h2
    have hleft : ∃ x, items.get? (items.length - 1) = some x := by
      cases hx : items.get? (items.length - 1) with
      | none =>
        rw [List.get?_eq_none] at hx
        omega
      | some x => exact ⟨x, rfl⟩
    have hright : ∃ x, items.get? 1 = some x := by
      cases hx : items.get? 1 with
      | none =>
        rw [List.get?_eq_none] at hx
        omega
      | some x => exact ⟨x, rfl⟩
    obtain ⟨left, hleft⟩ := hleft
    obtain ⟨right, hright⟩ := hright
    refine ⟨left, right, ?_, hleft, hright⟩
    rw [binaryFetch]
    have ha : pyGet items (((0 : Nat) : Int) - 1) = some left := by
      rw [pyGet_zero_sub_one items (by omega)]
      exact hleft
    have hb : pyGet items (((0 : Nat) : Int) + 1) = some right := by
      rw [pyGet_nat_add_one]
      simpa using hright
    rw [ha, hb]
  · intro β items index e h
    rw [binaryFetch] at h
    by_contra hcon
    push_neg at hcon
    have hr : ∃ x, pyGet items ((index : Int) + 1) = some x := by
      rw [pyGet_nat_add_one]
      cases hx : items.get? (index + 1) with
      | none => rw [List.get?_eq_none] at hx; omega
      | some x => exact ⟨x, rfl⟩
    have hl : ∃ x, pyGet items ((index : Int) - 1) = some x := by
      rcases Nat.eq_zero_or_pos index with h0 | h1
      · subst h0
        rw [pyGet_zero_sub_one items (by omega)]
        cases hx : items.get? (items.length - 1) with
        | none => rw [List.get?_eq_none] at hx; omega
        | some x => exact ⟨x, rfl⟩
      · rw [pyGet_nat_sub_one items index h1]
        cases hx : items.get? (index - 1) with
        | none => rw [List.get?_eq_none] at hx; omega
        | some x => exact ⟨x, rfl⟩
    obtain ⟨x, hx⟩ := hl
    obtain ⟨y, hy⟩ := hr
    rw [hx, hy] at h
    exact absurd h (by simp)

/-- Witness for **C9**: on a two-element list the fetch at index 0 succeeds
and the left operand is the last element. -/
theorem binary_wraparound_witness :
    ∃ left right,
      binaryFetch [Node.result true 1, Node.result false 2] 0 =
        Except.ok (left, right) ∧
      List.get? [Node.result true 1, Node.result false 2]
        (List.length
          ([Node.result true 1, Node.result false 2] : List (Node Bool)) - 1) =
        some left ∧
      List.get? [Node.result true 1, Node.result false 2] 1 = some right :=
  binary_wraparound.1 Bool [Node.result true 1, Node.result false 2]
    (by decide)

/-- **C10.**  `Group.__deepcopy__` (on the heap model) deep-copies the
children into FRESH cells — every pre-existing cell is unchanged, and the
copy's address lies past the original heap — while the copy's `parent`
field receives the group's ORIGINAL `parent` value, not remapped to any
copy: the clone that `evaluate` reduces shares its parent back-reference
with the original tree. -/
theorem deepcopy_parent_alias (fuel : Nat) (h : Heap α) (a : Nat)
    (h' : Heap α) (a' : Nat)
    (hc : deepcopyH fuel h a = some (h', a')) :
    ∃ g ch', h.get? a = some g ∧ h.length ≤ a' ∧
      h'.get? a' = some ⟨g.parent, g.grouping, ch'⟩ ∧
      ∀ b, b < h.length → h'.get? b = h.get? b := by
  obtain ⟨g, ch', t, hg, hht, hle, hget⟩ := deepcopyH_grows fuel h a h' a' hc
  refine ⟨g, ch', hg, hle, hget, ?_⟩
  intro b hb
  rw [hht]
  exact List.get?_append hb

/-- Witness for **C10**: copying the nested group at address 1 (child of
the root at 0) allocates the copy at address 2 with `parent` still `some 0`
— the ORIGINAL root's address — and leaves cells 0 and 1 unchanged. -/
theorem deepcopy_parent_alias_witness :
    ∃ g ch',
      List.get? ([⟨none, none, [.gref 1]⟩,
        ⟨some 0, some paren,
          [.value (fun _ => (false : Bool)) "a".toList]⟩] : Heap Bool) 1 =
        some g ∧
      ([⟨none, none, [.gref 1]⟩,
        ⟨some 0, some paren,
          [.value (fun _ => (false : Bool)) "a".toList]⟩] : Heap Bool).length ≤ 2 ∧
      List.get? (([⟨none, none, [.gref 1]⟩,
        ⟨some 0, some paren,
          [.value (fun _ => (false : Bool)) "a".toList]⟩] : Heap Bool) ++
        [⟨some 0, some paren,
          [.value (fun _ => (false : Bool)) "a".toList]⟩]) 2 =
        some ⟨g.parent, g.grouping, ch'⟩ ∧
      ∀ b, b < ([⟨none, none, [.gref 1]⟩,
        ⟨some 0, some paren,
          [.value (fun _ => (false : Bool)) "a".toList]⟩] : Heap Bool).length →
        List.get? (([⟨none, none, [.gref 1]⟩,
          ⟨some 0, some paren,
            [.value (fun _ => (false : Bool)) "a".toList]⟩] : Heap Bool) ++
          [⟨some 0, some paren,
            [.value (fun _ => (false : Bool)) "a".toList]⟩]) b =
        List.get? ([⟨none, none, [.gref 1]⟩,
          ⟨some 0, some paren,
            [.value (fun _ => (false : Bool)) "a".toList]⟩] : Heap Bool) b :=
  deepcopy_parent_alias 3
    [⟨none, none, [.gref 1]⟩,
      ⟨some 0, some paren, [.value (fun _ => (false : Bool)) "a".toList]⟩] 1
    ([⟨none, none, [.gref 1]⟩,
      ⟨some 0, some paren, [.value (fun _ => (false : Bool)) "a".toList]⟩] ++
      [⟨some 0, some paren, [.value (fun _ => (false : Bool)) "a".toList]⟩]) 2
    (by rw [← (deepAt_eq 3).1]; rfl)

end Gvalop
